import Mathlib

/-!
Verification of `codemap.py` (codebase map generator).

The program is shallow-embedded: pure string manipulation is implemented
over `List Char`; results of external parsers invoked by the program
(CPython's `ast.parse`, `json.loads`, and the `re` regex engine) are taken
as oracle inputs carried alongside each file's raw text, and the program's
own traversals of those parse results are implemented faithfully.
The filesystem is a finite tree of named entries; paths are kept as lists
of components and rendered with "/" (as `str(path.relative_to(root))`
does on POSIX).
-/

namespace Codemap

/-! ## String primitives (modelled on `List Char` so everything reduces) -/

/-- Python `str.strip()` whitespace set (the ASCII part used by the tool). -/
def isPySpace (c : Char) : Bool :=
  c = ' ' || c = '\t' || c = '\n' || c = '\r' || c = '\x0b' || c = '\x0c'

def pyStripList (cs : List Char) : List Char :=
  ((cs.dropWhile isPySpace).reverse.dropWhile isPySpace).reverse

/-- Python `s.strip()`. -/
def pyStrip (s : String) : String := ⟨pyStripList s.data⟩

/-- Python `s.lstrip(chars)`: drop the leading characters that occur in `chars`. -/
def pyLStrip (s : String) (chars : List Char) : String :=
  ⟨s.data.dropWhile (fun c => chars.contains c)⟩

def sStartsWith (s pre : String) : Bool := pre.data.isPrefixOf s.data

def sEndsWith (s suf : String) : Bool := suf.data.isSuffixOf s.data

def lowerStr (s : String) : String := ⟨s.data.map Char.toLower⟩

/-- Line-break characters recognized by Python `str.splitlines`. -/
def isLineBreak (c : Char) : Bool :=
  c = '\n' || c = '\r' || c = '\x0b' || c = '\x0c' || c = '\x1c' ||
    c = '\x1d' || c = '\x1e' || c = '\u0085' || c = '\u2028' || c = '\u2029'

def splitlinesAux : List Char → List Char → List (List Char)
  | [], acc => if acc.isEmpty then [] else [acc.reverse]
  | c :: rest, acc =>
      if c = '\r' then
        match rest with
        | '\n' :: rest2 => acc.reverse :: splitlinesAux rest2 []
        | [] => [acc.reverse]
        | c2 :: rest2 => acc.reverse :: splitlinesAux (c2 :: rest2) []
      else if isLineBreak c then acc.reverse :: splitlinesAux rest []
      else splitlinesAux rest (c :: acc)

/-- Python `s.splitlines()`. -/
def pySplitlines (s : String) : List String :=
  (splitlinesAux s.data []).map String.mk

/-- Python `s.split(".")[0]`: the text before the first dot. -/
def firstDotComponent (s : String) : String := ⟨s.data.takeWhile (fun c => c ≠ '.')⟩

/-- `pathlib.PurePath.suffix`: final extension including the dot, `""` when the
name has no dot, starts with its only dot, or ends with the dot. -/
def pathSuffix (name : String) : String :=
  let cs := name.data
  match cs.reverse.findIdx? (fun c => c = '.') with
  | none => ""
  | some j =>
      let i := cs.length - 1 - j
      if 0 < i ∧ 0 < j then ⟨cs.drop i⟩ else ""

/-- `pathlib.PurePath.stem`: the name with its suffix removed. -/
def pathStem (name : String) : String :=
  ⟨name.data.take (name.data.length - (pathSuffix name).data.length)⟩

/-- Components of a slash-separated relative path reference, empty segments
dropped (as `pathlib` drops them when joining). -/
def splitSlash (s : String) : List String :=
  ((s.data.splitOnP (fun c => c = '/')).map String.mk).filter (fun p => p ≠ "")

def joinPath (p : List String) : String := String.intercalate "/" p

/-! Code-point lexicographic order on strings, as Python compares `str`. -/

def lexLt : List Char → List Char → Bool
  | [], [] => false
  | [], _ :: _ => true
  | _ :: _, [] => false
  | a :: as, b :: bs => if a < b then true else if b < a then false else lexLt as bs

def lexLe : List Char → List Char → Bool
  | [], _ => true
  | _ :: _, [] => false
  | a :: as, b :: bs => if a < b then true else if b < a then false else lexLe as bs

def strLtB (a b : String) : Bool := lexLt a.data b.data

def strLeB (a b : String) : Bool := lexLe a.data b.data

/-! ## Generic stable insertion sort with a Bool relation
(Python `sorted` is stable; a stable sort by a total preorder is unique,
so insertion sort reproduces it.) -/

def orderedInsertB (le : α → α → Bool) (a : α) : List α → List α
  | [] => [a]
  | b :: l => if le a b then a :: b :: l else b :: orderedInsertB le a l

def insertionSortB (le : α → α → Bool) : List α → List α
  | [] => []
  | a :: l => orderedInsertB le a (insertionSortB le l)

/-! ## Oracle data model for file contents -/

/-- The shape of a Python `Compare` test that `_has_python_main_guard`
inspects: whether the `If` node's test is a `Compare` whose left operand is a
`Name`, and that name's identifier. -/
inductive PyTest where
  | compareName (id : String)
  | compareOther
  | otherTest
deriving DecidableEq, Repr

/-- A block of Python statements as produced by `ast.parse`, restricted to the
features the program inspects: `Import` dotted names, `ImportFrom`
module/level, `If` tests with nested bodies, leading string-constant
expressions (docstrings), and a generic compound statement carrying a nested
body (`def`, `class`, `for`, `while`, `try`, ...). The chain encoding makes a
block of statements a single value. -/
inductive PyBody where
  | done
  | importStmt (names : List String) (rest : PyBody)
  | importFrom (module : Option String) (level : Nat) (rest : PyBody)
  | ifStmt (test : PyTest) (body orelse : PyBody) (rest : PyBody)
  | exprConst (s : String) (rest : PyBody)
  | passStmt (rest : PyBody)
  | compound (body : PyBody) (rest : PyBody)
  | atomicStmt (rest : PyBody)
deriving DecidableEq, Repr

/-- The part of a `json.loads` result used by the program, restricted to the
value shapes it handles without raising `TypeError`: string `name`,
`description` and `main` fields, and a `bin` object of string values
(`bin` of any other shape is guarded by `isinstance(..., dict)` and behaves
as absent, which `binPairs = none` also covers). -/
structure JsonView where
  nameField : Option String
  descriptionField : Option String
  mainField : Option String
  binPairs : Option (List (String × String))
deriving DecidableEq, Repr

/-- A file's content as the program observes it.
`text` is the result of `_read_safe` (`none` = read failure or invalid
encoding). `pyBody` is the oracle result of `ast.parse text` (`none` =
`SyntaxError`); `json` the oracle result of `json.loads text` (`none` =
`JSONDecodeError`); `jsImports` the oracle list of matches of the
three import regexes of `_collect_js_imports`, in pattern-then-position
order.
The oracle fields are only consulted on paths where the program would
actually invoke the corresponding parser on `text`. -/
structure FileData where
  text : Option String
  pyBody : Option PyBody
  json : Option JsonView
  jsImports : List String
deriving DecidableEq, Repr

def noFileData : FileData := ⟨none, none, none, []⟩

/-- A directory's contents: a finite chain of named entries in `scandir`
order. A whole scanned tree is the root directory's `FTree`. `readable`
models whether listing the directory succeeds. -/
inductive FTree where
  | empty
  | fileE (name : String) (data : FileData) (rest : FTree)
  | dirE (name : String) (readable : Bool) (sub : FTree) (rest : FTree)
deriving DecidableEq, Repr

def filesOf : FTree → List (String × FileData)
  | .empty => []
  | .fileE n d rest => (n, d) :: filesOf rest
  | .dirE _ _ _ rest => filesOf rest

def dirEntriesOf : FTree → List (String × Bool × FTree)
  | .empty => []
  | .fileE _ _ rest => dirEntriesOf rest
  | .dirE n r sub rest => (n, r, sub) :: dirEntriesOf rest

def namesOf : FTree → List String
  | .empty => []
  | .fileE n _ rest => n :: namesOf rest
  | .dirE n _ _ rest => n :: namesOf rest

/-! ## Skip rules (`SKIP_DIRS`, `SKIP_EXTENSIONS`, `_should_skip`) -/

def SKIP_DIRS : List String :=
  [".git", "__pycache__", "node_modules", ".venv", "venv", "env",
   ".env", "dist", "build", ".tox", ".mypy_cache", ".pytest_cache",
   "htmlcov", ".eggs", ".idea", ".vscode", "coverage",
   ".ruff_cache", ".DS_Store", "__pypackages__", "site-packages",
   "target", "vendor", ".nx"]

def SKIP_EXTENSIONS : List String :=
  [".pyc", ".pyo", ".pyd", ".so", ".dll", ".dylib", ".exe", ".bin",
   ".jpg", ".jpeg", ".png", ".gif", ".ico", ".webp", ".bmp", ".tiff",
   ".mp3", ".mp4", ".wav", ".avi", ".mov",
   ".pdf", ".docx", ".xlsx",
   ".zip", ".tar", ".gz", ".bz2", ".7z", ".rar",
   ".db", ".sqlite", ".sqlite3",
   ".wasm"]

def ENTRY_POINT_NAMES : List String :=
  ["main.py", "__main__.py", "app.py", "run.py", "cli.py", "manage.py",
   "server.py", "wsgi.py", "asgi.py", "index.js", "index.ts",
   "app.js", "server.js", "main.js", "main.ts", "main.go", "main.rs",
   "Makefile", "Dockerfile"]

def LANG_COMMENT : List (String × String) :=
  [(".py", "#"), (".js", "//"), (".ts", "//"), (".jsx", "//"), (".tsx", "//"),
   (".go", "//"), (".rs", "//"), (".java", "//"), (".kt", "//"),
   (".c", "//"), (".cpp", "//"), (".h", "//"),
   (".sh", "#"), (".bash", "#"), (".zsh", "#"),
   (".rb", "#"), (".pl", "#"), (".lua", "--"), (".hs", "--"),
   (".r", "#"), (".R", "#")]

/-- `_should_skip` for a directory entry (the `is_dir()` branches). -/
def should_skip_dir (name : String) : Bool :=
  SKIP_DIRS.contains name || (sStartsWith name "." && name ≠ ".github")

/-- `_should_skip` for a file entry (the `is_file()` branches). Note the
source compares `path.suffix` against `SKIP_EXTENSIONS` case-sensitively. -/
def should_skip_file (name : String) : Bool :=
  SKIP_EXTENSIONS.contains (pathSuffix name) ||
    sEndsWith name ".min.js" || sEndsWith name ".min.css"

/-! ## `os.walk` with in-place pruning of skipped directories

`os.walk(root)` yields `(dirpath, dirnames, filenames)` top-down; the
program prunes `dirnames` in place with `_should_skip` before recursion.
A directory that cannot be listed contributes nothing below it. -/

def dirsWalk : FTree → List String → List (List String × List (String × FileData))
  | .empty, _ => []
  | .fileE _ _ rest, dr => dirsWalk rest dr
  | .dirE n r sub rest, dr =>
      (if !should_skip_dir n && r then
        (dr ++ [n], filesOf sub) :: dirsWalk sub (dr ++ [n])
      else []) ++ dirsWalk rest dr

/-- The pruned `os.walk` sequence: each visited directory's relative path
with its file list. -/
def osWalk (t : FTree) : List (List String × List (String × FileData)) :=
  ([], filesOf t) :: dirsWalk t []

/-- Relative path and name of every file visited by the pruned walk. -/
def walkedFiles (t : FTree) : List (List String × String) :=
  (osWalk t).flatMap (fun p => p.2.map (fun f => (p.1, f.1)))

/-- `root.rglob("*.py")`: every `*.py` file path anywhere in the tree, with
no skip-rule pruning (only unreadable directories yield nothing). -/
def rglobPy : FTree → List String → List (List String)
  | .empty, _ => []
  | .fileE n _ rest, dr =>
      (if sEndsWith n ".py" then [dr ++ [n]] else []) ++ rglobPy rest dr
  | .dirE n r sub rest, dr =>
      (if r then rglobPy sub (dr ++ [n]) else []) ++ rglobPy rest dr

/-! ## Path lookup helpers (for `main_path.exists()` and the skip analysis) -/

/-- First directory entry with the given name (names are unique on a real
filesystem; `wfb` below captures that invariant). -/
def findDirEntry : FTree → String → Option (Bool × FTree)
  | .empty, _ => none
  | .fileE _ _ rest, n => findDirEntry rest n
  | .dirE m r sub rest, n => if m = n then some (r, sub) else findDirEntry rest n

def hasEntryNamed : FTree → String → Bool
  | .empty, _ => false
  | .fileE m _ rest, n => m = n || hasEntryNamed rest n
  | .dirE m _ _ rest, n => m = n || hasEntryNamed rest n

/-- `Path.exists()` for a relative component path. -/
def entryExists : FTree → List String → Bool
  | _, [] => true
  | t, [n] => hasEntryNamed t n
  | t, n :: rest =>
      match findDirEntry t n with
      | some (_, sub) => entryExists sub rest
      | none => false

def subtreeAt : FTree → List String → Option FTree
  | t, [] => some t
  | t, n :: rest =>
      match findDirEntry t n with
      | some (_, sub) => subtreeAt sub rest
      | none => none

/-- Whether the path passes through (or ends at) a directory matched by the
skip predicate, following the directory chain from the root. -/
def underSkipped : FTree → List String → Bool
  | _, [] => false
  | t, n :: rest =>
      match findDirEntry t n with
      | some (_, sub) => should_skip_dir n || underSkipped sub rest
      | none => false

def distinctNames : List String → Bool
  | [] => true
  | n :: rest => !rest.contains n && distinctNames rest

def wfSubs : FTree → Bool
  | .empty => true
  | .fileE _ _ rest => wfSubs rest
  | .dirE _ _ sub rest => (distinctNames (namesOf sub) && wfSubs sub) && wfSubs rest

/-- Filesystem well-formedness: entry names are unique within each directory
(true of every real directory tree). -/
def wfb (t : FTree) : Bool := distinctNames (namesOf t) && wfSubs t

/-! ## `describe_file` and its helpers -/

/-- `ast.get_docstring(tree)`: the leading string-constant expression of the
module body, if any. CPython additionally normalizes indentation via
`inspect.cleandoc`; the oracle payload stands for the returned value. -/
def astGetDocstring : PyBody → Option String
  | .exprConst s _ => some s
  | _ => none

/-- One step of the regex-fallback loop of `extract_python_docstring`: while
the text starts with `#`, drop through the first newline and `lstrip` again.
`fuel` bounds the recursion; any `fuel` larger than the text length gives the
loop's result. (When a leading `#` line has no trailing newline CPython's
loop would not terminate; that point is unreachable because such sources
parse successfully and never enter the fallback.) -/
def stripLeadingHashLines : Nat → List Char → List Char
  | 0, cs => cs
  | fuel + 1, cs =>
      match cs with
      | '#' :: _ =>
          (match cs.findIdx? (fun c => c = '\n') with
           | some idx => stripLeadingHashLines fuel ((cs.drop (idx + 1)).dropWhile isPySpace)
           | none => cs)
      | _ => cs

/-- Lazy scan for the first closing triple quote; returns the content before
it (the `(.*?)` group of the fallback regex). -/
def scanForTriple (q : Char) : List Char → Option (List Char)
  | [] => none
  | c :: rest =>
      if [q, q, q].isPrefixOf (c :: rest) then some []
      else (scanForTriple q rest).map (fun l => c :: l)

/-- `re.match(r'"""(.*?)"""', s, re.DOTALL)` for quote character `q`. -/
def tripleQuoteMatch (q : Char) (cs : List Char) : Option (List Char) :=
  if [q, q, q].isPrefixOf cs then scanForTriple q (cs.drop 3) else none

/-- The regex-fallback branch of `extract_python_docstring`. -/
def regexDocstringFallback (source : String) : Option String :=
  let s1 := stripLeadingHashLines (source.data.length + 1) (source.data.dropWhile isPySpace)
  match tripleQuoteMatch '\"' s1 with
  | some inner => some (pyStrip ⟨inner⟩)
  | none =>
      match tripleQuoteMatch '\'' s1 with
      | some inner => some (pyStrip ⟨inner⟩)
      | none => none

/-- `extract_python_docstring`: AST docstring on parse success, regex
fallback on `SyntaxError`. `parsed` is the oracle result of
`ast.parse source`. -/
def extract_python_docstring (source : String) (parsed : Option PyBody) : Option String :=
  match parsed with
  | some body => astGetDocstring body
  | none => regexDocstringFallback source

def firstCommentOfLines (cc : String) : List String → Option String
  | [] => none
  | line :: rest =>
      let stripped := pyStrip line
      if sStartsWith stripped cc then
        let text := pyStrip (pyLStrip stripped cc.data)
        if text ≠ "" && !sStartsWith text "!" then some text
        else firstCommentOfLines cc rest
      else firstCommentOfLines cc rest

/-- `extract_first_comment`: first meaningful comment line. -/
def extract_first_comment (source : String) (cc : String) : Option String :=
  firstCommentOfLines cc (pySplitlines source)

/-- `describe_file`: one-line description for a source file. `fname` is the
file's name (`path.name`); the suffix is derived from it as
`path.suffix.lower()` does. -/
def describe_file (fname : String) (d : FileData) : Option String :=
  let suffix := lowerStr (pathSuffix fname)
  match d.text with
  | none => some "[binary or unreadable]"
  | some source =>
      let pyDesc : Option String :=
        if suffix = ".py" then
          match extract_python_docstring source d.pyBody with
          | some doc => if doc ≠ "" then some (pyStrip ((pySplitlines doc).headD "")) else none
          | none => none
        else none
      match pyDesc with
      | some r => some r
      | none =>
          let commentDesc : Option String :=
            match LANG_COMMENT.lookup suffix with
            | some cc => extract_first_comment source cc
            | none => none
          match commentDesc with
          | some r => some r
          | none =>
              if fname = "package.json" ∨ fname = "pyproject.toml" ∨ fname = "Cargo.toml" then
                if fname = "package.json" then
                  match d.json with
                  | some view =>
                      let parts :=
                        (match view.nameField with
                         | some n => [n]
                         | none => []) ++
                        (match view.descriptionField with
                         | some ds => [ds]
                         | none => [])
                      if parts.isEmpty then none else some (String.intercalate " - " parts)
                  | none => none
                else none
              else none

/-! ## `collect_module_descriptions` -/

/-- The inner `for fname in sorted(filenames)` loop: skip-filter, then a
shared budget check (`break` stops the current directory's loop), then
describe and count. -/
def cmdFiles (maxFiles : Nat) (dirRel : List String) :
    List (String × FileData) → Nat → List (List String × String) × Nat
  | [], count => ([], count)
  | (n, d) :: rest, count =>
      if should_skip_file n then cmdFiles maxFiles dirRel rest count
      else if maxFiles ≤ count then ([], count)
      else
        let here :=
          match describe_file n d with
          | some desc => [(dirRel ++ [n], desc)]
          | none => []
        let next := cmdFiles maxFiles dirRel rest (count + 1)
        (here ++ next.1, next.2)

def sortFilesByName (fs : List (String × FileData)) : List (String × FileData) :=
  insertionSortB (fun a b => strLeB a.1 b.1) fs

/-- `collect_module_descriptions`: walk with pruning, files in sorted order,
one shared counter across the whole walk. -/
def collect_module_descriptions (t : FTree) (maxFiles : Nat) :
    List (List String × String) :=
  ((osWalk t).foldl
    (fun acc p =>
      let step := cmdFiles maxFiles p.1 (sortFilesByName p.2) acc.2
      (acc.1 ++ step.1, step.2))
    ([], 0)).1

/-! ## Entry points -/

def _classify_entry (fname : String) : String :=
  let nameLower := lowerStr fname
  if nameLower = "dockerfile" ∨ nameLower = "docker-compose.yml" ∨ nameLower = "docker-compose.yaml" then "docker"
  else if nameLower = "makefile" then "build"
  else if nameLower = "setup.py" ∨ nameLower = "pyproject.toml" ∨ nameLower = "setup.cfg" then "package"
  else if nameLower = "wsgi.py" ∨ nameLower = "asgi.py" then "web-server"
  else if nameLower = "manage.py" then "django"
  else "python-main"

/-- `ast.walk` search of `_has_python_main_guard`: any `If` node anywhere
whose test is a `Compare` with left operand `Name("__name__")`. -/
def hasMainGuard : PyBody → Bool
  | .done => false
  | .importStmt _ rest => hasMainGuard rest
  | .importFrom _ _ rest => hasMainGuard rest
  | .ifStmt test body orelse rest =>
      (match test with
       | .compareName id => id = "__name__"
       | _ => false) || hasMainGuard body || hasMainGuard orelse || hasMainGuard rest
  | .exprConst _ rest => hasMainGuard rest
  | .passStmt rest => hasMainGuard rest
  | .compound body rest => hasMainGuard body || hasMainGuard rest
  | .atomicStmt rest => hasMainGuard rest

/-- `_has_python_main_guard(source)`; `parsed` is the oracle `ast.parse`
result (`none` = `SyntaxError`, which yields `False`). -/
def _has_python_main_guard (parsed : Option PyBody) : Bool :=
  match parsed with
  | some body => hasMainGuard body
  | none => false

/-- One record of `find_entry_points` (`{"path", "type", "reason"}`),
with the relative path kept as components. -/
structure EntryRecord where
  path : List String
  type : String
  reason : String
deriving DecidableEq, Repr

/-- The `add` attempts generated while visiting one file, in rule order:
canonical name, Python main guard, then `package.json` `main`/`bin` fields. -/
def addsForFile (root : FTree) (dirRel : List String) (fname : String) (d : FileData) :
    List EntryRecord :=
  (if ENTRY_POINT_NAMES.contains fname then
     [⟨dirRel ++ [fname], _classify_entry fname,
       "canonical entry-point filename `" ++ fname ++ "`"⟩]
   else []) ++
  (if sEndsWith fname ".py" then
     match d.text with
     | some src =>
         if src ≠ "" && _has_python_main_guard d.pyBody then
           [⟨dirRel ++ [fname], "python-script", "contains `if __name__ == '__main__'`"⟩]
         else []
     | none => []
   else []) ++
  (if fname = "package.json" then
     match d.text with
     | some _ =>
         match d.json with
         | some view =>
             (match view.mainField with
              | some mainStr =>
                  let target := dirRel ++ splitSlash mainStr
                  if entryExists root target then
                    [⟨target, "node-main",
                      "referenced as `main` in " ++ joinPath (dirRel ++ [fname])⟩]
                  else
                    [⟨dirRel ++ [fname], "node-config", "`main` field: " ++ mainStr⟩]
              | none => []) ++
             (match view.binPairs with
              | some pairs =>
                  pairs.map (fun bp =>
                    let target := dirRel ++ splitSlash bp.2
                    if entryExists root target then
                      ⟨target, "cli-binary", "npm bin `" ++ bp.1 ++ "`"⟩
                    else
                      ⟨dirRel ++ [fname], "cli-binary", "npm bin `" ++ bp.1 ++ "`"⟩)
              | none => [])
         | none => []
     | none => []
   else [])

/-- All `add` attempts of the pruned walk, in visit order. -/
def epWalkAdds (t : FTree) : List EntryRecord :=
  (osWalk t).flatMap (fun p => p.2.flatMap (fun f => addsForFile t p.1 f.1 f.2))

/-- The `seen`-set de-duplication of `add`: first record per path wins. -/
def dedupByPath : List EntryRecord → List (List String) → List EntryRecord
  | [], _ => []
  | a :: rest, seen =>
      if seen.contains a.path then dedupByPath rest seen
      else a :: dedupByPath rest (a.path :: seen)

/-- `sorted(entries, key=lambda e: (e["type"], e["path"]))` comparison. -/
def epLeB (a b : EntryRecord) : Bool :=
  strLtB a.type b.type || (a.type = b.type && strLeB (joinPath a.path) (joinPath b.path))

/-- `find_entry_points`. -/
def find_entry_points (t : FTree) : List EntryRecord :=
  insertionSortB epLeB (dedupByPath (epWalkAdds t) [])

/-! ## Dependency graph -/

/-- `ast.walk` collection of `_collect_python_imports`. (CPython walks
breadth-first; the order is irrelevant because the caller feeds the list
into `set()`.) -/
def collectPyImports : PyBody → List String
  | .done => []
  | .importStmt names rest => names.map firstDotComponent ++ collectPyImports rest
  | .importFrom module level rest =>
      (if level = 0 then
         match module with
         | some m => if m ≠ "" then [firstDotComponent m] else []
         | none => []
       else [String.mk (List.replicate level '.') ++ module.getD ""]) ++
        collectPyImports rest
  | .ifStmt _ body orelse rest =>
      collectPyImports body ++ collectPyImports orelse ++ collectPyImports rest
  | .exprConst _ rest => collectPyImports rest
  | .passStmt rest => collectPyImports rest
  | .compound body rest => collectPyImports body ++ collectPyImports rest
  | .atomicStmt rest => collectPyImports rest

def _collect_python_imports (parsed : Option PyBody) : List String :=
  match parsed with
  | some body => collectPyImports body
  | none => []

/-- Graph value: the source's `{"local": [...], "external": [...]}`
(`local` is a Lean keyword, hence the field names). -/
structure DepEntry where
  localDeps : List String
  externalDeps : List String
deriving DecidableEq, Repr

/-- The local-module name set from `root.rglob("*.py")`: the stem of a
top-level file, or the first path component of a deeper file. -/
def local_py_modules (t : FTree) : List String :=
  (rglobPy t []).filterMap (fun p =>
    match p with
    | [] => none
    | [single] => some (pathStem single)
    | first :: _ :: _ => some first)

def sortStrings (l : List String) : List String := insertionSortB strLeB l

def JS_SUFFIXES : List String := [".js", ".ts", ".jsx", ".tsx", ".mjs", ".cjs"]

/-- Per-file dependency record of `build_dep_graph`. Python `set(imports)`
iterates in unspecified order; partitioning the de-duplicated list and then
sorting yields the same two sorted lists. -/
def depEntryFor (localMods : List String) (fname : String) (d : FileData) :
    Option DepEntry :=
  let suffix := lowerStr (pathSuffix fname)
  match d.text with
  | none => none
  | some _ =>
      if suffix = ".py" then
        let imports := (_collect_python_imports d.pyBody).dedup
        let isLocal := fun i => sStartsWith i "." || localMods.contains i
        let l := imports.filter isLocal
        let e := imports.filter (fun i => !isLocal i)
        if l.isEmpty && e.isEmpty then none
        else some ⟨sortStrings l, sortStrings e⟩
      else if JS_SUFFIXES.contains suffix then
        let l := sortStrings ((d.jsImports.filter (fun i => sStartsWith i ".")).dedup)
        let e := sortStrings ((d.jsImports.filter (fun i => !sStartsWith i ".")).dedup)
        if l.isEmpty && e.isEmpty then none else some ⟨l, e⟩
      else none

/-- `build_dep_graph`, keyed by relative path components in walk order. -/
def build_dep_graph (t : FTree) : List (List String × DepEntry) :=
  let localMods := local_py_modules t
  (osWalk t).flatMap (fun p =>
    p.2.filterMap (fun f =>
      (depEntryFor localMods f.1 f.2).map (fun e => (p.1 ++ [f.1], e))))

/-! ## External-dependency ranking of `generate_map` -/

/-- `defaultdict(int)` increment, preserving first-insertion order. -/
def bumpCount : List (String × Nat) → String → List (String × Nat)
  | [], pkg => [(pkg, 1)]
  | (p, c) :: rest, pkg =>
      if p = pkg then (p, c + 1) :: rest else (p, c) :: bumpCount rest pkg

/-- `all_external` tallies, in first-encounter order over the graph. -/
def allExternalCounts (g : List (List String × DepEntry)) : List (String × Nat) :=
  g.foldl (fun acc e => e.2.externalDeps.foldl bumpCount acc) []

/-- Comparison used by `sorted(all_external.items(), key=lambda x: -x[1])`:
a stable descending sort by count only. -/
def countGeB (a b : String × Nat) : Bool := b.2 ≤ a.2

/-- The External Dependencies listing: top 20 by reference count. -/
def topExternalPackages (g : List (List String × DepEntry)) : List (String × Nat) :=
  (insertionSortB countGeB (allExternalCounts g)).take 20

/-! ## `build_file_tree` -/

/-- A directory entry as `iterdir` yields it. -/
inductive TNode where
  | dirN (name : String) (readable : Bool) (sub : FTree)
  | fileN (name : String) (data : FileData)
deriving DecidableEq, Repr

def entriesOf : FTree → List TNode
  | .empty => []
  | .fileE n d rest => .fileN n d :: entriesOf rest
  | .dirE n r sub rest => .dirN n r sub :: entriesOf rest

def tnodeName : TNode → String
  | .dirN n _ _ => n
  | .fileN n _ => n

def tnodeIsFile : TNode → Bool
  | .dirN _ _ _ => false
  | .fileN _ _ => true

def tnodeSkip : TNode → Bool
  | .dirN n _ _ => should_skip_dir n
  | .fileN n _ => should_skip_file n

/-- Sort key `(p.is_file(), p.name.lower())`, compared lexicographically
(`False < True`, then code-point order on the lowered name). -/
def tnodeKeyLe (a b : TNode) : Bool :=
  (!tnodeIsFile a && tnodeIsFile b) ||
    (tnodeIsFile a = tnodeIsFile b &&
      lexLe (lowerStr (tnodeName a)).data (lowerStr (tnodeName b)).data)

/-- One output line of `build_file_tree`. `entry` lines carry the entry's
relative path as ghost data for the statements below; `render` reproduces
the exact strings the source emits. -/
inductive TreeLine where
  | entry (pfx : String) (isLast : Bool) (relPath : List String) (name : String)
  | truncated (pfx : String) (count : Nat)
  | depthSentinel (pfx : String)
  | permDenied (pfx : String)
deriving DecidableEq, Repr

def TreeLine.render : TreeLine → String
  | .entry pfx isLast _ name => pfx ++ (if isLast then "└── " else "├── ") ++ name
  | .truncated pfx k => pfx ++ "... (" ++ toString k ++ " more items truncated)"
  | .depthSentinel pfx => pfx ++ "... (max depth reached)"
  | .permDenied pfx => pfx ++ "[permission denied]"

def TreeLine.isEntry : TreeLine → Bool
  | .entry _ _ _ _ => true
  | _ => false

/-- The `for i, entry in enumerate(all_entries)` loop with the shared
counter: budget check first (the sentinel counts the remaining unlisted
siblings, `len(all_entries) - i`), then the entry line, then recursion into
a directory's subtree, then the rest of the siblings. -/
def treeGo (recurse : FTree → Bool → String → List String → Nat → List TreeLine × Nat)
    (pfx : String) (dirRel : List String) (maxFiles : Nat) :
    List TNode → Nat → List TreeLine × Nat
  | [], c => ([], c)
  | n :: rest, c =>
      if maxFiles ≤ c then ([TreeLine.truncated pfx (rest.length + 1)], c)
      else
        let isLast := rest.isEmpty
        let ext := if isLast then "    " else "│   "
        let nm := tnodeName n
        let line := TreeLine.entry pfx isLast (dirRel ++ [nm]) nm
        let below :=
          match n with
          | .dirN _ r sub => recurse sub r (pfx ++ ext) (dirRel ++ [nm]) (c + 1)
          | .fileN _ _ => ([], c + 1)
        let after := treeGo recurse pfx dirRel maxFiles rest below.2
        (line :: below.1 ++ after.1, after.2)

/-- One `build_file_tree` call on a directory: the depth check
(`fuel = max_depth + 1 - current_depth`, so `fuel = 0` is
`current_depth > max_depth`), the permission failure, then the sorted,
skip-filtered, dirs-before-files entry loop. -/
def buildDirLines (maxFiles : Nat) :
    Nat → FTree → Bool → String → List String → Nat → List TreeLine × Nat
  | 0, _, _, pfx, _, c => ([TreeLine.depthSentinel pfx], c)
  | fuel + 1, t, readable, pfx, dirRel, c =>
      if !readable then ([TreeLine.permDenied pfx], c)
      else
        let sortedEntries := insertionSortB tnodeKeyLe (entriesOf t)
        let kept := sortedEntries.filter (fun n => !tnodeSkip n)
        let ordered := kept.filter (fun n => !tnodeIsFile n) ++ kept.filter tnodeIsFile
        treeGo (buildDirLines maxFiles fuel) pfx dirRel maxFiles ordered c

/-- `build_file_tree(root, max_depth=…, max_files=…)` with the counter
starting at 0. -/
def build_file_tree (t : FTree) (rootReadable : Bool) (maxDepth maxFiles : Nat) :
    List TreeLine :=
  (buildDirLines maxFiles (maxDepth + 1) t rootReadable "" [] 0).1

/-! ## CLI error handling (`generate_map` root checks and `main`) -/

inductive TargetStatus where
  | missing
  | existsFile
  | existsDir
deriving DecidableEq, Repr

inductive GenError where
  | fileNotFound (msg : String)
  | notADirectory (msg : String)
deriving DecidableEq, Repr

/-- The two root-validation raises at the top of `generate_map`. -/
def generateMapTargetCheck (directory : String) (st : TargetStatus) : Option GenError :=
  match st with
  | .missing => some (.fileNotFound ("Directory not found: " ++ directory))
  | .existsFile => some (.notADirectory ("Not a directory: " ++ directory))
  | .existsDir => none

/-- The fatal conditions `main` maps to exit codes. -/
inductive FatalOutcome where
  | badPath (e : GenError)
  | interrupt
deriving DecidableEq, Repr

/-- Exit codes of the `except` arms of `main`. -/
def mainExitCode : FatalOutcome → Nat
  | .badPath (.fileNotFound _) => 1
  | .badPath (.notADirectory _) => 1
  | .interrupt => 130

/-- Stderr text of the `except` arms of `main` (before `print`'s trailing
newline). -/
def mainStderr : FatalOutcome → String
  | .badPath (.fileNotFound m) => "Error: " ++ m
  | .badPath (.notADirectory m) => "Error: " ++ m
  | .interrupt => "\nAborted."

/-- Exit code of a run against a target of the given status: `none` means
the run proceeds (exit 0 barring later failures). -/
def exitCodeFor (directory : String) (st : TargetStatus) : Option Nat :=
  (generateMapTargetCheck directory st).map (fun e => mainExitCode (.badPath e))

/-! ## Derived definitions and concrete inputs used by the claims -/

/-- Number of non-sentinel entry lines of the rendered tree. -/
def countEntryLines (ls : List TreeLine) : Nat := ls.countP TreeLine.isEntry

/-- The category strings the code can actually emit: the six results of
`_classify_entry` plus the guard/manifest rule categories. -/
def codeEntryCategories : List String :=
  ["docker", "build", "package", "web-server", "django", "python-main",
   "python-script", "node-main", "node-config", "cli-binary"]

/-- From the spec (Data model, EntryPoint record): the enumerated category
set as the spec words it. -/
def specEntryCategories : List String :=
  ["docker", "build", "package", "web-server", "script-framework",
   "generic-script", "node-main", "node-config", "cli-binary"]

/-- Whether `c` is a suffix of the entry chain `t` (same directory, some
leading entries dropped). -/
def chainSuffix (c : FTree) : FTree → Bool
  | .empty => c = FTree.empty
  | .fileE n d rest => c = FTree.fileE n d rest || chainSuffix c rest
  | .dirE n r sub rest => c = FTree.dirE n r sub rest || chainSuffix c rest

/-! Concrete inputs for the round-trip scenario of claim C1:
`main.py` = `if __name__ == "__main__": pass`,
`utils.py` = `import os\nimport helpers\n`, `helpers.py` = `pass`. -/

def fdMainC1 : FileData :=
  ⟨some "if __name__ == \"__main__\": pass",
   some (.ifStmt (.compareName "__name__") (.passStmt .done) .done .done), none, []⟩

def fdUtilsC1 : FileData :=
  ⟨some "import os\nimport helpers\n",
   some (.importStmt ["os"] (.importStmt ["helpers"] .done)), none, []⟩

def fdHelpersC1 : FileData := ⟨some "pass", some (.passStmt .done), none, []⟩

def treeC1 : FTree :=
  .fileE "main.py" fdMainC1
    (.fileE "utils.py" fdUtilsC1 (.fileE "helpers.py" fdHelpersC1 .empty))

/-- Concrete input for claim C2: a directory holding only `main.py` with
unreadable content (the canonical-name rule needs no content). -/
def treeC2 : FTree := .fileE "main.py" noFileData .empty

/-- Concrete input for claim C4: `a.py` importing `zzz` and `b.py` importing
`aaa`, both external with count 1. -/
def treeC4 : FTree :=
  .fileE "a.py" ⟨some "import zzz\n", some (.importStmt ["zzz"] .done), none, []⟩
    (.fileE "b.py" ⟨some "import aaa\n", some (.importStmt ["aaa"] .done), none, []⟩ .empty)

/-- Concrete input for claim C5: a `package.json` whose `description` value
contains an escaped newline. -/
def fdPkgC5 : FileData :=
  ⟨some "\x7b\"name\": \"my-app\", \"description\": \"line1\nline2\"\x7d", none,
   some ⟨some "my-app", some "line1\nline2", none, none⟩, []⟩

/-- Concrete witness input for claim C5: a Python file with a docstring. -/
def fdDocC5 : FileData :=
  ⟨some "\"\"\"Handles user authentication.\"\"\"\nimport os\n",
   some (.exprConst "Handles user authentication." (.importStmt ["os"] .done)), none, []⟩

/-- Concrete witness input for claim C6: two files under a budget of 1. -/
def treeC6 : FTree := .fileE "a.py" noFileData (.fileE "b.py" noFileData .empty)

def fdMainC7 : FileData :=
  ⟨some "if __name__ == \"__main__\": pass",
   some (.ifStmt (.compareName "__name__") (.passStmt .done) .done .done), none, []⟩

def fdToolC7 : FileData :=
  ⟨some "if __name__ == \"__main__\": run()",
   some (.ifStmt (.compareName "__name__") (.atomicStmt .done) .done .done), none, []⟩

/-- Concrete witness input for claim C7: a canonically named file plus
another Python file with a main guard. -/
def treeC7 : FTree :=
  .fileE "main.py" fdMainC7 (.fileE "tool.py" fdToolC7 .empty)

/-- Concrete input for claim C8's counterexample: a `package.json` whose
`main` field points into `node_modules`. -/
def treeC8 : FTree :=
  .fileE "package.json"
    ⟨some "\x7b\"main\": \"node_modules/x.js\"\x7d", none,
     some ⟨none, none, some "node_modules/x.js", none⟩, []⟩
    (.dirE "node_modules" true (.fileE "x.js" noFileData .empty) .empty)

def fdHookC8 : FileData :=
  ⟨some "import os\n", some (.importStmt ["os"] .done), none, []⟩

def fdAppC8 : FileData :=
  ⟨some "import os\n", some (.importStmt ["os"] .done), none, []⟩

/-- Concrete witness input for claim C8: a `.git` directory holding a Python
file. -/
def treeC8w : FTree :=
  .dirE ".git" true (.fileE "hook.py" fdHookC8 .empty) (.fileE "app.py" fdAppC8 .empty)

/-- Concrete witness input for claim C10. -/
def treeC10 : FTree :=
  .fileE "app.py"
    ⟨some "import os\nimport re\nimport utils\n",
     some (.importStmt ["os"] (.importStmt ["re"] (.importStmt ["utils"] .done))), none, []⟩
    (.fileE "utils.py" ⟨some "pass", some (.passStmt .done), none, []⟩ .empty)

/-! ## Lemmas about the stable insertion sort -/

theorem mem_orderedInsertB (le : α → α → Bool) (a x : α) :
    ∀ (l : List α), x ∈ orderedInsertB le a l ↔ x = a ∨ x ∈ l
  | [] => by simp [orderedInsertB]
  | b :: l => by
      rw [orderedInsertB]
      split
      · simp
      · rw [List.mem_cons, mem_orderedInsertB le a x l, List.mem_cons]
        tauto

theorem perm_orderedInsertB (le : α → α → Bool) (a : α) :
    ∀ (l : List α), List.Perm (orderedInsertB le a l) (a :: l)
  | [] => by simp [orderedInsertB]
  | b :: l => by
      rw [orderedInsertB]
      split
      · exact .refl _
      · exact ((perm_orderedInsertB le a l).cons b).trans (List.Perm.swap a b l)

theorem perm_insertionSortB (le : α → α → Bool) :
    ∀ (l : List α), List.Perm (insertionSortB le l) l
  | [] => .refl _
  | a :: l => by
      rw [insertionSortB]
      exact (perm_orderedInsertB le a (insertionSortB le l)).trans
        ((perm_insertionSortB le l).cons a)

theorem mem_insertionSortB (le : α → α → Bool) (l : List α) (x : α) :
    x ∈ insertionSortB le l ↔ x ∈ l :=
  (perm_insertionSortB le l).mem_iff

theorem pairwise_orderedInsertB (le : α → α → Bool)
    (htot : ∀ a b, le a b = true ∨ le b a = true)
    (htrans : ∀ a b c, le a b = true → le b c = true → le a c = true)
    (a : α) :
    ∀ (l : List α), l.Pairwise (fun x y => le x y = true) →
      (orderedInsertB le a l).Pairwise (fun x y => le x y = true)
  | [], _ => by simp [orderedInsertB]
  | b :: l, hp => by
      rw [orderedInsertB]
      rcases List.pairwise_cons.1 hp with ⟨hb, hl⟩
      split
      · rename_i hab
        refine List.pairwise_cons.2 ⟨?_, hp⟩
        intro x hx
        rcases List.mem_cons.1 hx with rfl | hx
        · exact hab
        · exact htrans a b x hab (hb x hx)
      · rename_i hab
        refine List.pairwise_cons.2 ⟨?_, pairwise_orderedInsertB le htot htrans a l hl⟩
        intro x hx
        rcases (mem_orderedInsertB le a x l).1 hx with rfl | hx
        · rcases htot x b with h | h
          · exact absurd h hab
          · exact h
        · exact hb x hx

theorem sorted_insertionSortB (le : α → α → Bool)
    (htot : ∀ a b, le a b = true ∨ le b a = true)
    (htrans : ∀ a b c, le a b = true → le b c = true → le a c = true) :
    ∀ (l : List α), (insertionSortB le l).Pairwise (fun x y => le x y = true)
  | [] => by simp [insertionSortB]
  | a :: l => by
      rw [insertionSortB]
      exact pairwise_orderedInsertB le htot htrans a _
        (sorted_insertionSortB le htot htrans l)

theorem nodup_insertionSortB (le : α → α → Bool) (l : List α) (h : l.Nodup) :
    (insertionSortB le l).Nodup :=
  ((perm_insertionSortB le l).nodup_iff).2 h

theorem filter_orderedInsertB_pos (le : α → α → Bool) (p : α → Bool) (a : α)
    (hpa : p a = true) :
    ∀ (l : List α), (∀ b ∈ l, p b = true → le a b = true) →
      (orderedInsertB le a l).filter p = a :: l.filter p
  | [], _ => by simp [orderedInsertB, hpa]
  | b :: l, hcomp => by
      rw [orderedInsertB]
      split
      · simp [hpa]
      · rename_i hab
        have hpb : p b = false := by
          cases hb : p b
          · rfl
          · exact absurd (hcomp b (List.mem_cons_self b l) hb) hab
        rw [List.filter_cons, hpb]
        simp only [Bool.false_eq_true, if_false]
        rw [filter_orderedInsertB_pos le p a hpa l
          (fun x hx hpx => hcomp x (List.mem_cons_of_mem b hx) hpx), List.filter_cons, hpb]
        simp

theorem filter_orderedInsertB_neg (le : α → α → Bool) (p : α → Bool) (a : α)
    (hpa : p a = false) :
    ∀ (l : List α), (orderedInsertB le a l).filter p = l.filter p
  | [] => by simp [orderedInsertB, hpa]
  | b :: l => by
      rw [orderedInsertB]
      split
      · simp [List.filter_cons, hpa]
      · rw [List.filter_cons, List.filter_cons, filter_orderedInsertB_neg le p a hpa l]

/-- Stability of the insertion sort: the subsequence of elements inside one
equivalence class of the comparison is untouched. -/
theorem filter_insertionSortB (le : α → α → Bool) (p : α → Bool)
    (hcomp : ∀ a b, p a = true → p b = true → le a b = true) :
    ∀ (l : List α), (insertionSortB le l).filter p = l.filter p
  | [] => by simp [insertionSortB]
  | a :: l => by
      rw [insertionSortB]
      cases hpa : p a
      · rw [filter_orderedInsertB_neg le p a hpa, List.filter_cons, hpa,
          filter_insertionSortB le p hcomp l]
        simp
      · rw [filter_orderedInsertB_pos le p a hpa _
            (fun b hb hpb => hcomp a b hpa hpb),
          filter_insertionSortB le p hcomp l, List.filter_cons, hpa]
        simp

/-! ## Lemmas about the code-point order -/

theorem lexLt_irrefl : ∀ (a : List Char), lexLt a a = false
  | [] => rfl
  | c :: a => by simp [lexLt, lexLt_irrefl a]

theorem lexLt_trans :
    ∀ (a b c : List Char), lexLt a b = true → lexLt b c = true → lexLt a c = true
  | [], _ :: _, _ :: _, _, _ => rfl
  | a :: as, b :: bs, c :: cs, h1, h2 => by
      rw [lexLt] at h1 h2 ⊢
      split at h1
      · rename_i hab
        split at h2
        · rename_i hbc
          have : a < c := lt_trans hab hbc
          simp [this]
        · split at h2
          · exact absurd h2 (by simp)
          · rename_i hcb hbc
            have hbc' : b = c := le_antisymm (not_lt.1 hbc) (not_lt.1 hcb)
            subst hbc'
            simp [hab]
      · split at h1
        · exact absurd h1 (by simp)
        · rename_i hba hab
          have hab' : a = b := le_antisymm (not_lt.1 hab) (not_lt.1 hba)
          subst hab'
          split at h2
          · rename_i hbc
            simp [hbc]
          · split at h2
            · exact absurd h2 (by simp)
            · rename_i hcb hbc
              simp only [if_neg hbc, if_neg hcb]
              exact lexLt_trans as bs cs h1 h2

theorem lexLt_trichotomy :
    ∀ (a b : List Char), lexLt a b = true ∨ a = b ∨ lexLt b a = true
  | [], [] => by simp
  | [], _ :: _ => by simp [lexLt]
  | _ :: _, [] => by simp [lexLt]
  | a :: as, b :: bs => by
      rcases lt_trichotomy a b with h | h | h
      · left; simp [lexLt, h]
      · subst h
        rcases lexLt_trichotomy as bs with h | h | h
        · left; simp [lexLt, lexLt_irrefl, h]
        · right; left; rw [h]
        · right; right; simp [lexLt, lexLt_irrefl, h]
      · right; right; simp [lexLt, h]

theorem lexLe_iff :
    ∀ (a b : List Char), lexLe a b = true ↔ (lexLt a b = true ∨ a = b)
  | [], [] => by simp [lexLe, lexLt]
  | [], _ :: _ => by simp [lexLe, lexLt]
  | _ :: _, [] => by simp [lexLe, lexLt]
  | a :: as, b :: bs => by
      rw [lexLe, lexLt]
      split
      · simp
      · split
        · rename_i hab hba
          simp only [Bool.false_eq_true, false_iff, not_or]
          refine ⟨by simp, ?_⟩
          intro h
          injection h with h1 _
          exact absurd h1.symm (ne_of_lt hba)
        · rename_i hba hab
          have hab' : a = b := le_antisymm (not_lt.1 hab) (not_lt.1 hba)
          subst hab'
          rw [lexLe_iff as bs]
          constructor
          · rintro (h | rfl)
            · exact Or.inl h
            · exact Or.inr rfl
          · rintro (h | h)
            · exact Or.inl h
            · exact Or.inr (by injection h)

theorem lexLe_total (a b : List Char) : lexLe a b = true ∨ lexLe b a = true := by
  rcases lexLt_trichotomy a b with h | h | h
  · exact Or.inl ((lexLe_iff a b).2 (Or.inl h))
  · exact Or.inl ((lexLe_iff a b).2 (Or.inr h))
  · exact Or.inr ((lexLe_iff b a).2 (Or.inl h))

theorem lexLe_trans (a b c : List Char)
    (h1 : lexLe a b = true) (h2 : lexLe b c = true) : lexLe a c = true := by
  rcases (lexLe_iff a b).1 h1 with h1 | rfl
  · rcases (lexLe_iff b c).1 h2 with h2 | rfl
    · exact (lexLe_iff a c).2 (Or.inl (lexLt_trans a b c h1 h2))
    · exact (lexLe_iff a b).2 (Or.inl h1)
  · exact h2

theorem strLeB_total (a b : String) : strLeB a b = true ∨ strLeB b a = true :=
  lexLe_total a.data b.data

theorem strLeB_trans (a b c : String) (h1 : strLeB a b = true)
    (h2 : strLeB b c = true) : strLeB a c = true :=
  lexLe_trans a.data b.data c.data h1 h2

theorem strLtB_or (a b : String) :
    strLtB a b = true ∨ a = b ∨ strLtB b a = true := by
  rcases lexLt_trichotomy a.data b.data with h | h | h
  · exact Or.inl h
  · refine Or.inr (Or.inl ?_)
    cases a with
    | mk da =>
      cases b with
      | mk db => exact congrArg String.mk h
  · exact Or.inr (Or.inr h)

theorem strLtB_trans (a b c : String) (h1 : strLtB a b = true)
    (h2 : strLtB b c = true) : strLtB a c = true :=
  lexLt_trans a.data b.data c.data h1 h2

theorem countGeB_total (a b : String × Nat) :
    countGeB a b = true ∨ countGeB b a = true := by
  unfold countGeB
  rcases Nat.le_total b.2 a.2 with h | h
  · left; simpa using h
  · right; simpa using h

theorem countGeB_trans (a b c : String × Nat) (h1 : countGeB a b = true)
    (h2 : countGeB b c = true) : countGeB a c = true := by
  simp only [countGeB, decide_eq_true_eq] at *
  omega

theorem epLeB_total (a b : EntryRecord) : epLeB a b = true ∨ epLeB b a = true := by
  unfold epLeB
  rcases strLtB_or a.type b.type with h | h | h
  · left; simp [h]
  · rcases lexLe_total (joinPath a.path).data (joinPath b.path).data with hp | hp
    · left; simp [h, strLeB, hp]
    · right; simp [h, strLeB, hp]
  · right; simp [h]

theorem epLeB_trans (a b c : EntryRecord) (h1 : epLeB a b = true)
    (h2 : epLeB b c = true) : epLeB a c = true := by
  unfold epLeB at h1 h2 ⊢
  rcases Bool.or_eq_true_iff.1 h1 with hab | hab
  · rcases Bool.or_eq_true_iff.1 h2 with hbc | hbc
    · exact Bool.or_eq_true_iff.2 (Or.inl (strLtB_trans _ _ _ hab hbc))
    · rw [Bool.and_eq_true] at hbc
      obtain ⟨heq, _⟩ := hbc
      rw [decide_eq_true_eq] at heq
      exact Bool.or_eq_true_iff.2 (Or.inl (heq ▸ hab))
  · rw [Bool.and_eq_true] at hab
    obtain ⟨heq, hle⟩ := hab
    rw [decide_eq_true_eq] at heq
    rcases Bool.or_eq_true_iff.1 h2 with hbc | hbc
    · exact Bool.or_eq_true_iff.2 (Or.inl (heq ▸ hbc))
    · rw [Bool.and_eq_true] at hbc
      obtain ⟨heq2, hle2⟩ := hbc
      rw [decide_eq_true_eq] at heq2
      refine Bool.or_eq_true_iff.2 (Or.inr ?_)
      rw [Bool.and_eq_true]
      refine ⟨?_, strLeB_trans _ _ _ hle hle2⟩
      rw [decide_eq_true_eq]
      exact heq.trans heq2

theorem tnodeKeyLe_total (a b : TNode) : tnodeKeyLe a b = true ∨ tnodeKeyLe b a = true := by
  unfold tnodeKeyLe
  rcases lexLe_total (lowerStr (tnodeName a)).data (lowerStr (tnodeName b)).data with hp | hp
  · cases ha : tnodeIsFile a <;> cases hb : tnodeIsFile b <;> simp [hp]
  · cases ha : tnodeIsFile a <;> cases hb : tnodeIsFile b <;> simp [hp]

theorem tnodeKeyLe_trans (a b c : TNode) (h1 : tnodeKeyLe a b = true)
    (h2 : tnodeKeyLe b c = true) : tnodeKeyLe a c = true := by
  unfold tnodeKeyLe at h1 h2 ⊢
  cases ha : tnodeIsFile a <;> cases hb : tnodeIsFile b <;> cases hc : tnodeIsFile c <;>
    simp [ha, hb, hc] at h1 h2 ⊢ <;>
    exact lexLe_trans _ _ _ h1 h2

/-! ## Budget accounting of the tree renderer (claim C6) -/

theorem treeGo_counter (M : Nat)
    (recurse : FTree → Bool → String → List String → Nat → List TreeLine × Nat)
    (H : ∀ t r pfx rel c, c ≤ M →
       (recurse t r pfx rel c).2 = c + countEntryLines (recurse t r pfx rel c).1 ∧
       (recurse t r pfx rel c).2 ≤ M) :
    ∀ (nodes : List TNode) (pfx : String) (rel : List String) (c : Nat), c ≤ M →
      (treeGo recurse pfx rel M nodes c).2 =
        c + countEntryLines (treeGo recurse pfx rel M nodes c).1 ∧
      (treeGo recurse pfx rel M nodes c).2 ≤ M := by
  intro nodes
  induction nodes with
  | nil =>
      intro pfx rel c hc
      simp [treeGo, countEntryLines, hc]
  | cons n rest ih =>
      intro pfx rel c hc
      rw [treeGo]
      by_cases hM : M ≤ c
      · rw [if_pos hM]
        constructor
        · simp [countEntryLines, TreeLine.isEntry]
        · exact hc
      · rw [if_neg hM]
        have hc1 : c + 1 ≤ M := Nat.succ_le_of_lt (Nat.lt_of_not_le hM)
        cases n with
        | dirN nm r sub =>
            obtain ⟨h1, h2⟩ := H sub r
              ((pfx ++ if rest.isEmpty then "    " else "│   ")) (rel ++ [nm]) (c + 1) hc1
            obtain ⟨h3, h4⟩ := ih pfx rel _ h2
            simp only [countEntryLines] at h1 h3 h4
            refine ⟨?_, ?_⟩ <;>
              · simp [countEntryLines, tnodeName, List.countP_cons, List.countP_append,
                  TreeLine.isEntry] at h1 h3 h4 ⊢
                omega
        | fileN nm d =>
            obtain ⟨h3, h4⟩ := ih pfx rel (c + 1) hc1
            simp only [countEntryLines] at h3 h4
            refine ⟨?_, ?_⟩ <;>
              · simp [countEntryLines, tnodeName, List.countP_cons, List.countP_append,
                  TreeLine.isEntry] at h3 h4 ⊢
                omega

theorem buildDirLines_counter (M : Nat) :
    ∀ (fuel : Nat) (t : FTree) (r : Bool) (pfx : String) (rel : List String) (c : Nat),
      c ≤ M →
      (buildDirLines M fuel t r pfx rel c).2 =
        c + countEntryLines (buildDirLines M fuel t r pfx rel c).1 ∧
      (buildDirLines M fuel t r pfx rel c).2 ≤ M := by
  intro fuel
  induction fuel with
  | zero =>
      intro t r pfx rel c hc
      simp [buildDirLines, countEntryLines, TreeLine.isEntry, hc]
  | succ fuel ih =>
      intro t r pfx rel c hc
      rw [buildDirLines]
      by_cases hr : r = false
      · subst hr
        simp [countEntryLines, TreeLine.isEntry, hc]
      · rw [Bool.not_eq_false] at hr
        subst hr
        simp only [Bool.not_true, Bool.false_eq_true, if_false]
        exact treeGo_counter M (buildDirLines M fuel)
          (fun t' r' pfx' rel' c' hc' => ih t' r' pfx' rel' c' hc') _ pfx rel c hc

/-! ## De-duplication and category lemmas for the entry-point detector -/

theorem mem_dedupByPath :
    ∀ (l : List EntryRecord) (seen : List (List String)) (r : EntryRecord),
      r ∈ dedupByPath l seen → r ∈ l
  | [], _, r, h => by simp [dedupByPath] at h
  | a :: rest, seen, r, h => by
      rw [dedupByPath] at h
      split at h
      · exact List.mem_cons_of_mem a (mem_dedupByPath rest seen r h)
      · rcases List.mem_cons.1 h with h | h
        · exact h ▸ List.mem_cons_self _ _
        · exact List.mem_cons_of_mem a (mem_dedupByPath rest _ r h)

theorem classify_entry_mem (f : String) :
    _classify_entry f = "docker" ∨ _classify_entry f = "build" ∨
      _classify_entry f = "package" ∨ _classify_entry f = "web-server" ∨
      _classify_entry f = "django" ∨ _classify_entry f = "python-main" := by
  unfold _classify_entry
  dsimp only
  split_ifs <;> simp

theorem strAppend_data (s t : String) : (s ++ t).data = s.data ++ t.data := rfl

theorem addsForFile_type_mem (root : FTree) (dr : List String) (fname : String)
    (d : FileData) : ∀ rec ∈ addsForFile root dr fname d,
      rec.type ∈ codeEntryCategories := by
  intro rec hrec
  unfold addsForFile at hrec
  simp only [List.append_assoc, List.mem_append] at hrec
  rcases hrec with h | h | h
  · split at h
    · rw [List.mem_singleton] at h
      subst h
      rcases classify_entry_mem fname with h | h | h | h | h | h <;>
        simp [codeEntryCategories, h]
    · simp at h
  · split at h
    · split at h
      · split at h
        · rw [List.mem_singleton] at h
          subst h
          simp [codeEntryCategories]
        · simp at h
      · simp at h
    · simp at h
  · split at h
    · split at h
      · split at h
        · rw [List.mem_append] at h
          rcases h with h | h
          · split at h
            · split at h
              · rw [List.mem_singleton] at h
                subst h
                simp [codeEntryCategories]
              · rw [List.mem_singleton] at h
                subst h
                simp [codeEntryCategories]
            · simp at h
          · split at h
            · rw [List.mem_map] at h
              obtain ⟨bp, _, hbp⟩ := h
              subst hbp
              split <;> simp [codeEntryCategories]
            · simp at h
        · simp at h
      · simp at h
    · simp at h

theorem epWalkAdds_type_mem (t : FTree) :
    ∀ rec ∈ epWalkAdds t, rec.type ∈ codeEntryCategories := by
  intro rec hrec
  unfold epWalkAdds at hrec
  rw [List.mem_flatMap] at hrec
  obtain ⟨p, _, hrec⟩ := hrec
  rw [List.mem_flatMap] at hrec
  obtain ⟨f, _, hrec⟩ := hrec
  exact addsForFile_type_mem t p.1 f.1 f.2 rec hrec

/-! ## Claim theorems -/

/-- Claim C1 counterexample: on the round-trip directory the lone `main.py`
entry-point record carries the canonical-filename reason, not the main-guard
reason the claim asserts (the canonical-name rule fires first and the
guard's `add` is a de-duplicated no-op). -/
theorem claim_C1_counterexample :
    find_entry_points treeC1 =
      [⟨["main.py"], "python-main", "canonical entry-point filename `main.py`"⟩] ∧
    ("canonical entry-point filename `main.py`" = "contains `if __name__ == '__main__'`") = False := by
  constructor
  · decide
  · simp

/-- Claim C1 (amended): on the round-trip directory, `build_dep_graph` omits
`main.py` and `helpers.py` and maps `utils.py` to local `["helpers"]`,
external `["os"]`; `find_entry_points` includes `main.py` once, via the
canonical-filename rule (category `python-main`), not via the guard rule. -/
theorem claim_C1 :
    build_dep_graph treeC1 = [(["utils.py"], ⟨["helpers"], ["os"]⟩)] ∧
    find_entry_points treeC1 =
      [⟨["main.py"], "python-main", "canonical entry-point filename `main.py`"⟩] := by
  constructor <;> decide

/-- Claim C2 counterexample: a directory holding only `main.py` yields a
record with category `python-main`, which is not in the spec's enumerated
category set (the code also emits `django` and `python-script`, likewise
absent). -/
theorem claim_C2_counterexample :
    find_entry_points treeC2 =
      [⟨["main.py"], "python-main", "canonical entry-point filename `main.py`"⟩] ∧
    specEntryCategories.contains "python-main" = false := by
  constructor <;> decide

/-- Claim C2 (amended): every record's category is drawn from the set the
code actually emits — docker, build, package, web-server, django,
python-main, python-script, node-main, node-config, cli-binary — and the
returned list is sorted ascending by (category, path). -/
theorem claim_C2 (t : FTree) :
    ((find_entry_points t).all fun r => codeEntryCategories.contains r.type) = true ∧
    List.Pairwise (fun a b => epLeB a b = true) (find_entry_points t) := by
  constructor
  · rw [List.all_eq_true]
    intro r hr
    have hmem : r ∈ dedupByPath (epWalkAdds t) [] :=
      (mem_insertionSortB epLeB _ r).1 hr
    have hadds : r ∈ epWalkAdds t := mem_dedupByPath _ _ r hmem
    have htype := epWalkAdds_type_mem t r hadds
    exact List.elem_iff.2 htype
  · exact sorted_insertionSortB epLeB epLeB_total epLeB_trans _

/-- Claim C3 counterexample: a missing target and a file target both exit
with code 1, so the three fatal conditions do not map to pairwise distinct
exit codes. -/
theorem claim_C3_counterexample :
    exitCodeFor "/nonexistent/path/xyz" TargetStatus.missing = some 1 ∧
    exitCodeFor "/nonexistent/path/xyz" TargetStatus.existsFile = some 1 ∧
    mainExitCode FatalOutcome.interrupt = 130 := by
  refine ⟨?_, ?_, ?_⟩ <;> decide

/-- Claim C3 (amended): a missing target and a not-a-directory target both
terminate with exit code 1 and a one-line `Error:` message on stderr; an
interrupt terminates with exit code 130 (distinct from the path failures);
all fatal exit codes are distinct from success (0). The interrupt message is
`Aborted.` preceded by a blank line. -/
theorem claim_C3 (dir : String) (hdir : '\n' ∉ dir.data) :
    exitCodeFor dir TargetStatus.missing = some 1 ∧
    exitCodeFor dir TargetStatus.existsFile = some 1 ∧
    exitCodeFor dir TargetStatus.existsDir = none ∧
    mainExitCode FatalOutcome.interrupt = 130 ∧
    (∀ o : FatalOutcome, mainExitCode o ≠ 0) ∧
    (∀ st e, generateMapTargetCheck dir st = some e →
       '\n' ∉ (mainStderr (FatalOutcome.badPath e)).data) := by
  refine ⟨rfl, rfl, rfl, rfl, ?_, ?_⟩
  · intro o
    cases o with
    | badPath e => cases e <;> simp [mainExitCode]
    | interrupt => simp [mainExitCode]
  · intro st e h
    cases st with
    | missing =>
        injection h with h
        subst h
        simp only [mainStderr, strAppend_data, List.mem_append]
        rintro (hm | hm | hm)
        · revert hm; decide
        · revert hm; decide
        · exact hdir hm
    | existsFile =>
        injection h with h
        subst h
        simp only [mainStderr, strAppend_data, List.mem_append]
        rintro (hm | hm | hm)
        · revert hm; decide
        · revert hm; decide
        · exact hdir hm
    | existsDir => exact absurd h (by simp [generateMapTargetCheck])

/-- Claim C3 witness at a concrete directory string. -/
theorem claim_C3_witness :
    exitCodeFor "demo" TargetStatus.missing = some 1 ∧
    '\n' ∉ (mainStderr (FatalOutcome.badPath
      (GenError.fileNotFound ("Directory not found: " ++ "demo")))).data ∧
    mainExitCode FatalOutcome.interrupt = 130 :=
  ⟨(claim_C3 "demo" (by decide)).1,
   (claim_C3 "demo" (by decide)).2.2.2.2.2 TargetStatus.missing _ rfl,
   (claim_C3 "demo" (by decide)).2.2.2.1⟩

/-- Claim C4 counterexample: two external packages with equal reference
counts appear in first-encounter order (`zzz` before `aaa`), not ascending
name order as the claim asserts. -/
theorem claim_C4_counterexample :
    topExternalPackages (build_dep_graph treeC4) = [("zzz", 1), ("aaa", 1)] ∧
    lexLt "aaa".data "zzz".data = true := by
  constructor <;> decide

/-- Claim C4 (amended): the External Dependencies listing is the first 20
entries of a stable descending sort by reference count: counts are
non-increasing, and entries with equal counts keep their first-encounter
(insertion) order, not name order. -/
theorem claim_C4 (t : FTree) :
    List.Pairwise (fun a b => countGeB a b = true)
      (topExternalPackages (build_dep_graph t)) ∧
    (∀ c : Nat,
      (insertionSortB countGeB (allExternalCounts (build_dep_graph t))).filter
          (fun p => p.2 == c) =
        (allExternalCounts (build_dep_graph t)).filter (fun p => p.2 == c)) ∧
    topExternalPackages (build_dep_graph t) =
      (insertionSortB countGeB (allExternalCounts (build_dep_graph t))).take 20 := by
  refine ⟨?_, ?_, rfl⟩
  · exact List.Pairwise.sublist (List.take_sublist _ _)
      (sorted_insertionSortB countGeB countGeB_total countGeB_trans _)
  · intro c
    refine filter_insertionSortB countGeB (fun p => p.2 == c) ?_ _
    intro a b ha hb
    rw [beq_iff_eq] at ha hb
    simp [countGeB, ha, hb]

/-- Claim C6: the rendered tree holds at most `max_files` entry lines, and
whenever the loop hits an exhausted budget with siblings remaining it emits
exactly one truncation sentinel counting those remaining siblings. -/
theorem claim_C6 :
    (∀ (t : FTree) (rootReadable : Bool) (maxDepth maxFiles : Nat),
       countEntryLines (build_file_tree t rootReadable maxDepth maxFiles) ≤ maxFiles) ∧
    (∀ (recurse : FTree → Bool → String → List String → Nat → List TreeLine × Nat)
       (pfx : String) (dirRel : List String) (maxFiles : Nat)
       (nodes : List TNode) (c : Nat),
       maxFiles ≤ c → nodes ≠ [] →
       treeGo recurse pfx dirRel maxFiles nodes c =
         ([TreeLine.truncated pfx nodes.length], c)) := by
  constructor
  · intro t rr mD mF
    obtain ⟨h1, h2⟩ := buildDirLines_counter mF (mD + 1) t rr "" [] 0 (Nat.zero_le _)
    unfold build_file_tree
    omega
  · intro recurse pfx dirRel mF nodes c hc hne
    cases nodes with
    | nil => exact absurd rfl hne
    | cons n rest =>
        rw [treeGo, if_pos hc]
        simp

/-- Claim C6 witness: a two-file directory under a budget of one file. -/
theorem claim_C6_witness :
    countEntryLines (build_file_tree treeC6 true 6 1) ≤ 1 ∧
    treeGo (buildDirLines 1 6) "" [] 1 [TNode.fileN "b.py" noFileData] 1 =
      ([TreeLine.truncated "" 1], 1) :=
  ⟨claim_C6.1 treeC6 true 6 1,
   claim_C6.2 (buildDirLines 1 6) "" [] 1 [TNode.fileN "b.py" noFileData] 1
     (by decide) (by simp)⟩

/-- Claim C9: a file whose content cannot be read or decoded yields exactly
the sentinel description. -/
theorem claim_C9 (fname : String) (d : FileData) (h : d.text = none) :
    describe_file fname d = some "[binary or unreadable]" := by
  unfold describe_file
  rw [h]

/-- Claim C9 witness at a concrete unreadable file. -/
theorem claim_C9_witness :
    describe_file "image.png" ⟨none, none, none, []⟩ = some "[binary or unreadable]" :=
  claim_C9 "image.png" ⟨none, none, none, []⟩ rfl

theorem depEntryFor_shape (lm : List String) (n : String) (d : FileData)
    (e : DepEntry) (h : depEntryFor lm n d = some e) :
    ∃ l ex, e = ⟨sortStrings l, sortStrings ex⟩ ∧ l.Nodup ∧ ex.Nodup := by
  unfold depEntryFor at h
  split at h
  · exact absurd h (by simp)
  · simp only [] at h
    split at h
    · split at h
      · exact absurd h (by simp)
      · injection h with h
        exact ⟨_, _, h.symm,
          List.Nodup.filter _ (List.nodup_dedup _),
          List.Nodup.filter _ (List.nodup_dedup _)⟩
    · split at h
      · split at h
        · exact absurd h (by simp)
        · injection h with h
          refine ⟨(d.jsImports.filter (fun i => sStartsWith i ".")).dedup,
            (d.jsImports.filter (fun i => !sStartsWith i ".")).dedup, h.symm, ?_, ?_⟩ <;>
            exact List.nodup_dedup _
      · exact absurd h (by simp)

/-- Claim C10: both lists of every dependency-graph record are sorted
ascending and duplicate-free. -/
theorem claim_C10 (t : FTree) (p : List String) (e : DepEntry)
    (h : (p, e) ∈ build_dep_graph t) :
    e.localDeps.Pairwise (fun a b => strLeB a b = true) ∧ e.localDeps.Nodup ∧
    e.externalDeps.Pairwise (fun a b => strLeB a b = true) ∧ e.externalDeps.Nodup := by
  unfold build_dep_graph at h
  rw [List.mem_flatMap] at h
  obtain ⟨pr, _, h⟩ := h
  rw [List.mem_filterMap] at h
  obtain ⟨f, _, h⟩ := h
  rw [Option.map_eq_some'] at h
  obtain ⟨de, hde, hpe⟩ := h
  injection hpe with hp he
  subst he
  obtain ⟨l, ex, rfl, hl, hex⟩ := depEntryFor_shape _ f.1 f.2 de hde
  exact ⟨sorted_insertionSortB strLeB strLeB_total strLeB_trans l,
    nodup_insertionSortB strLeB l hl,
    sorted_insertionSortB strLeB strLeB_total strLeB_trans ex,
    nodup_insertionSortB strLeB ex hex⟩

/-- Claim C10 witness on a concrete graph entry. -/
theorem claim_C10_witness :
    (["utils"] : List String).Pairwise (fun a b => strLeB a b = true) ∧
    (["utils"] : List String).Nodup ∧
    (["os", "re"] : List String).Pairwise (fun a b => strLeB a b = true) ∧
    (["os", "re"] : List String).Nodup :=
  claim_C10 treeC10 ["app.py"] ⟨["utils"], ["os", "re"]⟩ (by decide)

/-! ## String lemmas for claim C5 -/

theorem mem_of_mem_dropWhile {p : α → Bool} {l : List α} {x : α}
    (h : x ∈ l.dropWhile p) : x ∈ l :=
  (List.dropWhile_sublist p).subset h

theorem mem_pyStripList {cs : List Char} {c : Char} (h : c ∈ pyStripList cs) :
    c ∈ cs := by
  unfold pyStripList at h
  rw [List.mem_reverse] at h
  have h := mem_of_mem_dropWhile h
  rw [List.mem_reverse] at h
  exact mem_of_mem_dropWhile h

theorem head?_dropWhile_not {p : α → Bool} :
    ∀ (l : List α) (a : α), (l.dropWhile p).head? = some a → p a = false
  | [], a, h => by simp at h
  | x :: xs, a, h => by
      rw [List.dropWhile_cons] at h
      split at h
      · exact head?_dropWhile_not xs a h
      · rename_i hx
        rw [List.head?_cons, Option.some_inj] at h
        subst h
        simpa using hx

theorem dropWhile_eq_self_of_head {p : α → Bool} (l : List α)
    (h : ∀ a, l.head? = some a → p a = false) : l.dropWhile p = l := by
  cases l with
  | nil => rfl
  | cons x xs =>
      rw [List.dropWhile_cons, if_neg]
      rw [h x rfl]
      simp

theorem getLast?_of_suffix {l₁ l₂ : List α} (h : l₁ <:+ l₂) (hne : l₁ ≠ []) :
    l₂.getLast? = l₁.getLast? := by
  obtain ⟨pre, rfl⟩ := h
  exact List.getLast?_append_of_ne_nil pre hne

theorem stripped_of_heads (l : List Char)
    (hhead : ∀ a, l.head? = some a → isPySpace a = false)
    (hlast : ∀ a, l.getLast? = some a → isPySpace a = false) :
    pyStripList l = l := by
  unfold pyStripList
  rw [dropWhile_eq_self_of_head l hhead]
  rw [dropWhile_eq_self_of_head _ (fun a ha =>
    hlast a (by rwa [List.head?_reverse] at ha))]
  exact List.reverse_reverse l

theorem pyStripList_idem (cs : List Char) :
    pyStripList (pyStripList cs) = pyStripList cs := by
  by_cases hX : pyStripList cs = []
  · rw [hX]; rfl
  · refine stripped_of_heads _ ?_ ?_
    · intro a ha
      unfold pyStripList at ha
      rw [List.head?_reverse] at ha
      have hsuf : ((cs.dropWhile isPySpace).reverse.dropWhile isPySpace) <:+
          (cs.dropWhile isPySpace).reverse := List.dropWhile_suffix _
      have hne : (cs.dropWhile isPySpace).reverse.dropWhile isPySpace ≠ [] := by
        intro hnil
        apply hX
        unfold pyStripList
        rw [hnil]
        rfl
      rw [← getLast?_of_suffix hsuf hne, List.getLast?_reverse] at ha
      exact head?_dropWhile_not cs a ha
    · intro a ha
      unfold pyStripList at ha
      rw [List.getLast?_reverse] at ha
      exact head?_dropWhile_not _ a ha

theorem pyStrip_idem (s : String) : pyStrip (pyStrip s) = pyStrip s := by
  unfold pyStrip
  exact congrArg String.mk (pyStripList_idem s.data)

theorem splitlinesAux_no_break :
    ∀ (n : Nat) (cs acc : List Char), cs.length ≤ n →
      (∀ ch ∈ acc, isLineBreak ch = false) →
      ∀ l ∈ splitlinesAux cs acc, ∀ ch ∈ l, isLineBreak ch = false := by
  intro n
  induction n with
  | zero =>
      intro cs acc hlen hacc l hl
      rw [Nat.le_zero, List.length_eq_zero] at hlen
      subst hlen
      simp only [splitlinesAux] at hl
      split at hl
      · simp at hl
      · rw [List.mem_singleton] at hl
        subst hl
        intro ch hch
        exact hacc ch (List.mem_reverse.1 hch)
  | succ n ih =>
      intro cs acc hlen hacc l hl
      cases cs with
      | nil =>
          simp only [splitlinesAux] at hl
          split at hl
          · simp at hl
          · rw [List.mem_singleton] at hl
            subst hl
            intro ch hch
            exact hacc ch (List.mem_reverse.1 hch)
      | cons ch0 rest =>
          rw [List.length_cons, Nat.succ_le_succ_iff] at hlen
          rw [splitlinesAux.eq_def] at hl
          dsimp only at hl
          split at hl
          · split at hl
            · rcases List.mem_cons.1 hl with rfl | hl
              · intro ch hch
                exact hacc ch (List.mem_reverse.1 hch)
              · refine ih _ [] ?_ (by simp) l hl
                simp at hlen
                omega
            · rw [List.mem_singleton] at hl
              subst hl
              intro ch hch
              exact hacc ch (List.mem_reverse.1 hch)
            · rcases List.mem_cons.1 hl with rfl | hl
              · intro ch hch
                exact hacc ch (List.mem_reverse.1 hch)
              · exact ih _ [] hlen (by simp) l hl
          · split at hl
            · rcases List.mem_cons.1 hl with rfl | hl
              · intro ch hch
                exact hacc ch (List.mem_reverse.1 hch)
              · exact ih rest [] hlen (by simp) l hl
            · rename_i hbr
              refine ih rest (ch0 :: acc) hlen ?_ l hl
              intro ch hch
              rcases List.mem_cons.1 hch with rfl | hch
              · simpa using hbr
              · exact hacc ch hch

/-- Every line of `pySplitlines` is free of line-break characters; in
particular it contains no newline. -/
theorem pySplitlines_no_break (s : String) (l : String)
    (hl : l ∈ pySplitlines s) : ∀ ch ∈ l.data, isLineBreak ch = false := by
  unfold pySplitlines at hl
  rw [List.mem_map] at hl
  obtain ⟨cl, hcl, rfl⟩ := hl
  exact splitlinesAux_no_break s.data.length s.data [] (Nat.le_refl _) (by simp) cl hcl

theorem firstCommentOfLines_shape (cc : String) :
    ∀ (lines : List String) (s : String), firstCommentOfLines cc lines = some s →
      ∃ line ∈ lines, s = pyStrip (pyLStrip (pyStrip line) cc.data)
  | [], s, h => by simp [firstCommentOfLines] at h
  | line :: rest, s, h => by
      rw [firstCommentOfLines] at h
      simp only [] at h
      split at h
      · split at h
        · rw [Option.some_inj] at h
          exact ⟨line, List.mem_cons_self _ _, h.symm⟩
        · obtain ⟨l2, hl2, hs⟩ := firstCommentOfLines_shape cc rest s h
          exact ⟨l2, List.mem_cons_of_mem _ hl2, hs⟩
      · obtain ⟨l2, hl2, hs⟩ := firstCommentOfLines_shape cc rest s h
        exact ⟨l2, List.mem_cons_of_mem _ hl2, hs⟩

theorem no_newline_of_comment (source cc s : String)
    (h : extract_first_comment source cc = some s) :
    '\n' ∉ s.data ∧ pyStrip s = s := by
  unfold extract_first_comment at h
  obtain ⟨line, hline, hs⟩ := firstCommentOfLines_shape cc (pySplitlines source) s h
  constructor
  · intro hmem
    rw [hs] at hmem
    have h2 := mem_pyStripList hmem
    have h3 : '\n' ∈ (pyStrip line).data := mem_of_mem_dropWhile h2
    have h4 : '\n' ∈ line.data := mem_pyStripList h3
    have h5 := pySplitlines_no_break source line hline '\n' h4
    simp [isLineBreak] at h5
  · rw [hs]
    exact pyStrip_idem _

/-- Claim C5 counterexample: the `package.json` manifest path joins the raw
`name` and `description` values, so an escaped newline in the description
yields a multi-line description. -/
theorem claim_C5_counterexample :
    describe_file "package.json" fdPkgC5 = some "my-app - line1\nline2" ∧
    '\n' ∈ ("my-app - line1\nline2" : String).data := by
  constructor <;> decide

/-- Claim C5 (amended): for every file other than `package.json`, any
description `describe_file` produces is a single line (no newline) with
surrounding whitespace trimmed; the `package.json` manifest path instead
joins the raw `name` and `description` JSON values, which may contain
newlines and untrimmed whitespace. -/
theorem claim_C5 (fname : String) (d : FileData) (s : String)
    (hn : fname ≠ "package.json") (h : describe_file fname d = some s) :
    '\n' ∉ s.data ∧ pyStrip s = s := by
  unfold describe_file at h
  split at h
  · rw [Option.some_inj] at h
    subst h
    exact ⟨by decide, by decide⟩
  · simp only [] at h
    split at h
    · rename_i r heq
      rw [Option.some_inj] at h
      subst h
      split at heq
      · split at heq
        · split at heq
          · rw [Option.some_inj] at heq
            subst heq
            refine ⟨?_, pyStrip_idem _⟩
            intro hmem
            have hmem2 := mem_pyStripList hmem
            rename_i doc _ _
            cases hsplit : pySplitlines doc with
            | nil =>
                rw [hsplit] at hmem2
                simp [List.headD] at hmem2
            | cons l0 ls =>
                rw [hsplit] at hmem2
                simp only [List.headD_cons] at hmem2
                have h5 := pySplitlines_no_break doc l0
                  (by rw [hsplit]; exact List.mem_cons_self _ _) '\n' hmem2
                simp [isLineBreak] at h5
          · exact absurd heq (by simp)
        · exact absurd heq (by simp)
      · exact absurd heq (by simp)
    · split at h
      · rename_i r heq
        rw [Option.some_inj] at h
        subst h
        split at heq
        · exact no_newline_of_comment _ _ _ heq
        · exact absurd heq (by simp)
      · rw [if_neg hn] at h
        simp at h

/-- Claim C5 witness: a Python file whose docstring yields a description. -/
theorem claim_C5_witness :
    '\n' ∉ ("Handles user authentication." : String).data ∧
    pyStrip "Handles user authentication." = "Handles user authentication." :=
  claim_C5 "mymod.py" fdDocC5 "Handles user authentication." (by decide) (by decide)

/-! ## First-match and uniqueness lemmas for the entry-point detector -/

theorem dedupByPath_find :
    ∀ (l : List EntryRecord) (seen : List (List String)) (r : EntryRecord),
      r ∈ dedupByPath l seen →
      r.path ∉ seen ∧ l.find? (fun a => a.path == r.path) = some r
  | [], seen, r, h => by simp [dedupByPath] at h
  | a :: rest, seen, r, h => by
      rw [dedupByPath] at h
      split at h
      · rename_i hseen
        obtain ⟨hnot, hfind⟩ := dedupByPath_find rest seen r h
        refine ⟨hnot, ?_⟩
        have hne : (a.path == r.path) = false := by
          rw [beq_eq_false_iff_ne]
          intro hap
          apply hnot
          rw [← hap]
          exact List.elem_iff.1 hseen
        rw [List.find?_cons_of_neg _ (by simp [hne]), hfind]
      · rename_i hseen
        rcases List.mem_cons.1 h with rfl | h
        · refine ⟨fun hmem => hseen (List.elem_iff.2 hmem), ?_⟩
          rw [List.find?_cons_of_pos _ (by simp)]
        · obtain ⟨hnot, hfind⟩ := dedupByPath_find rest (a.path :: seen) r h
          have hne : r.path ≠ a.path := fun hap =>
            hnot (hap ▸ List.mem_cons_self _ _)
          refine ⟨fun hmem => hnot (List.mem_cons_of_mem _ hmem), ?_⟩
          rw [List.find?_cons_of_neg _ (by simp [hne.symm]), hfind]

theorem dedupByPath_nodup :
    ∀ (l : List EntryRecord) (seen : List (List String)),
      ((dedupByPath l seen).map EntryRecord.path).Nodup
  | [], _ => by simp [dedupByPath]
  | a :: rest, seen => by
      rw [dedupByPath]
      split
      · exact dedupByPath_nodup rest seen
      · rw [List.map_cons, List.nodup_cons]
        constructor
        · intro hmem
          rw [List.mem_map] at hmem
          obtain ⟨r, hr, hpath⟩ := hmem
          have hnot := (dedupByPath_find rest (a.path :: seen) r hr).1
          apply hnot
          rw [hpath]
          exact List.mem_cons_self _ _
        · exact dedupByPath_nodup rest _

theorem dedupByPath_mem_path :
    ∀ (l : List EntryRecord) (seen : List (List String)) (p : List String),
      p ∈ l.map EntryRecord.path → p ∉ seen →
      p ∈ (dedupByPath l seen).map EntryRecord.path
  | [], _, p, h, _ => by simp at h
  | a :: rest, seen, p, h, hns => by
      rw [dedupByPath]
      rw [List.map_cons, List.mem_cons] at h
      split
      · rename_i hseen
        rcases h with rfl | h
        · exact absurd (List.elem_iff.1 hseen) hns
        · exact dedupByPath_mem_path rest seen p h hns
      · rcases h with rfl | h
        · rw [List.map_cons]
          exact List.mem_cons_self _ _
        · by_cases hpa : p = a.path
          · rw [List.map_cons, List.mem_cons]
            exact Or.inl hpa
          · rw [List.map_cons, List.mem_cons]
            right
            refine dedupByPath_mem_path rest (a.path :: seen) p h ?_
            intro hmem
            rcases List.mem_cons.1 hmem with h' | h'
            · exact hpa h'
            · exact hns h'

theorem countP_path_eq_one :
    ∀ (l : List EntryRecord) (p : List String),
      (l.map EntryRecord.path).Nodup → p ∈ l.map EntryRecord.path →
      l.countP (fun r => r.path == p) = 1
  | [], p, _, hmem => by simp at hmem
  | a :: rest, p, hnd, hmem => by
      rw [List.map_cons, List.nodup_cons] at hnd
      rw [List.map_cons, List.mem_cons] at hmem
      rw [List.countP_cons]
      rcases hmem with rfl | hmem
      · have hz : rest.countP (fun r => r.path == a.path) = 0 := by
          rw [List.countP_eq_zero]
          intro r hr hbeq
          rw [beq_iff_eq] at hbeq
          exact hnd.1 (hbeq ▸ List.mem_map_of_mem EntryRecord.path hr)
        simp [hz]
      · have hne : p ≠ a.path := by
          intro hpa
          exact hnd.1 (hpa ▸ hmem)
        rw [countP_path_eq_one rest p hnd.2 hmem]
        simp [Ne.symm hne]

theorem canonical_add_path_mem (t : FTree) (dr : List String) (n : String)
    (hw : (dr, n) ∈ walkedFiles t) (hc : ENTRY_POINT_NAMES.contains n = true) :
    dr ++ [n] ∈ (epWalkAdds t).map EntryRecord.path := by
  unfold walkedFiles at hw
  rw [List.mem_flatMap] at hw
  obtain ⟨p, hp, hw⟩ := hw
  rw [List.mem_map] at hw
  obtain ⟨f, hf, heq⟩ := hw
  injection heq with h1 h2
  subst h1
  subst h2
  rw [List.mem_map]
  refine ⟨⟨p.1 ++ [f.1], _classify_entry f.1,
    "canonical entry-point filename `" ++ f.1 ++ "`"⟩, ?_, rfl⟩
  unfold epWalkAdds
  rw [List.mem_flatMap]
  refine ⟨p, hp, ?_⟩
  rw [List.mem_flatMap]
  refine ⟨f, hf, ?_⟩
  unfold addsForFile
  rw [if_pos hc]
  exact List.mem_append.2 (Or.inl (List.mem_append.2 (Or.inl (List.mem_singleton.2 rfl))))

/-- Claim C7: each relative path appears at most once in the entry-point
output; the record kept for a path is the one produced by the first
detection rule that matched it during the walk; and a walked file whose name
is on the canonical entry-point list appears exactly once. -/
theorem claim_C7 (t : FTree) :
    ((find_entry_points t).map EntryRecord.path).Nodup ∧
    (∀ r ∈ find_entry_points t,
       (epWalkAdds t).find? (fun a => a.path == r.path) = some r) ∧
    (∀ (dr : List String) (n : String), (dr, n) ∈ walkedFiles t →
       ENTRY_POINT_NAMES.contains n = true →
       (find_entry_points t).countP (fun r => r.path == dr ++ [n]) = 1) := by
  refine ⟨?_, ?_, ?_⟩
  · have hperm := (perm_insertionSortB epLeB (dedupByPath (epWalkAdds t) [])).map
      EntryRecord.path
    exact hperm.nodup_iff.2 (dedupByPath_nodup _ _)
  · intro r hr
    have hmem : r ∈ dedupByPath (epWalkAdds t) [] :=
      (mem_insertionSortB epLeB _ r).1 hr
    exact (dedupByPath_find _ [] r hmem).2
  · intro dr n hw hc
    have hpath := canonical_add_path_mem t dr n hw hc
    have hmem := dedupByPath_mem_path (epWalkAdds t) [] (dr ++ [n]) hpath
      (by simp)
    unfold find_entry_points
    rw [(perm_insertionSortB epLeB (dedupByPath (epWalkAdds t) [])).countP_eq]
    exact countP_path_eq_one _ _ (dedupByPath_nodup _ _) hmem

/-- Claim C7 witness: `main.py` (canonical name and guard) appears once with
the canonical record; `tool.py` is kept via the guard rule. -/
theorem claim_C7_witness :
    ((find_entry_points treeC7).map EntryRecord.path).Nodup ∧
    (epWalkAdds treeC7).find?
        (fun a => a.path == (⟨["main.py"], "python-main",
          "canonical entry-point filename `main.py`"⟩ : EntryRecord).path) =
      some ⟨["main.py"], "python-main", "canonical entry-point filename `main.py`"⟩ ∧
    (find_entry_points treeC7).countP (fun r => r.path == [] ++ ["main.py"]) = 1 :=
  ⟨(claim_C7 treeC7).1,
   (claim_C7 treeC7).2.1
     ⟨["main.py"], "python-main", "canonical entry-point filename `main.py`"⟩
     (by decide),
   (claim_C7 treeC7).2.2 [] "main.py" (by decide) (by decide)⟩

/-! ## Skip-pruning safety (claim C8): chain and name lemmas -/

theorem chainSuffix_refl (t : FTree) : chainSuffix t t = true := by
  cases t <;> simp [chainSuffix]

theorem chainSuffix_of_fileE :
    ∀ (full : FTree) (n : String) (d : FileData) (rest : FTree),
      chainSuffix (FTree.fileE n d rest) full = true → chainSuffix rest full = true
  | .empty, n, d, rest, h => by simp [chainSuffix] at h
  | .fileE n' d' rest', n, d, rest, h => by
      rw [chainSuffix] at h
      rw [chainSuffix]
      rcases Bool.or_eq_true_iff.1 h with h | h
      · rw [decide_eq_true_eq] at h
        injection h with h1 h2 h3
        subst h3
        exact Bool.or_eq_true_iff.2 (Or.inr (chainSuffix_refl rest))
      · exact Bool.or_eq_true_iff.2 (Or.inr (chainSuffix_of_fileE rest' n d rest h))
  | .dirE n' r' sub' rest', n, d, rest, h => by
      rw [chainSuffix] at h
      rw [chainSuffix]
      rcases Bool.or_eq_true_iff.1 h with h | h
      · rw [decide_eq_true_eq] at h
        exact absurd h (by simp)
      · exact Bool.or_eq_true_iff.2 (Or.inr (chainSuffix_of_fileE rest' n d rest h))

theorem chainSuffix_of_dirE :
    ∀ (full : FTree) (n : String) (r : Bool) (sub rest : FTree),
      chainSuffix (FTree.dirE n r sub rest) full = true → chainSuffix rest full = true
  | .empty, n, r, sub, rest, h => by simp [chainSuffix] at h
  | .fileE n' d' rest', n, r, sub, rest, h => by
      rw [chainSuffix] at h
      rw [chainSuffix]
      rcases Bool.or_eq_true_iff.1 h with h | h
      · rw [decide_eq_true_eq] at h
        exact absurd h (by simp)
      · exact Bool.or_eq_true_iff.2 (Or.inr (chainSuffix_of_dirE rest' n r sub rest h))
  | .dirE n' r' sub' rest', n, r, sub, rest, h => by
      rw [chainSuffix] at h
      rw [chainSuffix]
      rcases Bool.or_eq_true_iff.1 h with h | h
      · rw [decide_eq_true_eq] at h
        injection h with h1 h2 h3 h4
        subst h4
        exact Bool.or_eq_true_iff.2 (Or.inr (chainSuffix_refl rest))
      · exact Bool.or_eq_true_iff.2 (Or.inr (chainSuffix_of_dirE rest' n r sub rest h))

theorem chainSuffix_dirE_mem :
    ∀ (full : FTree) (n : String) (r : Bool) (sub rest : FTree),
      chainSuffix (FTree.dirE n r sub rest) full = true →
      (n, r, sub) ∈ dirEntriesOf full
  | .empty, n, r, sub, rest, h => by simp [chainSuffix] at h
  | .fileE n' d' rest', n, r, sub, rest, h => by
      rw [chainSuffix] at h
      rcases Bool.or_eq_true_iff.1 h with h | h
      · rw [decide_eq_true_eq] at h
        exact absurd h (by simp)
      · rw [dirEntriesOf]
        exact chainSuffix_dirE_mem rest' n r sub rest h
  | .dirE n' r' sub' rest', n, r, sub, rest, h => by
      rw [chainSuffix] at h
      rcases Bool.or_eq_true_iff.1 h with h | h
      · rw [decide_eq_true_eq] at h
        injection h with h1 h2 h3 h4
        subst h1; subst h2; subst h3
        exact List.mem_cons_self _ _
      · rw [dirEntriesOf]
        exact List.mem_cons_of_mem _ (chainSuffix_dirE_mem rest' n r sub rest h)

theorem mem_namesOf_of_dirEntry :
    ∀ (t : FTree) (n : String) (r : Bool) (sub : FTree),
      (n, r, sub) ∈ dirEntriesOf t → n ∈ namesOf t
  | .empty, n, r, sub, h => by simp [dirEntriesOf] at h
  | .fileE m d rest, n, r, sub, h => by
      rw [dirEntriesOf] at h
      rw [namesOf]
      exact List.mem_cons_of_mem _ (mem_namesOf_of_dirEntry rest n r sub h)
  | .dirE m rb sb rest, n, r, sub, h => by
      rw [dirEntriesOf] at h
      rw [namesOf]
      rcases List.mem_cons.1 h with h | h
      · injection h with h1 h2
        subst h1
        exact List.mem_cons_self _ _
      · exact List.mem_cons_of_mem _ (mem_namesOf_of_dirEntry rest n r sub h)

theorem mem_namesOf_of_file :
    ∀ (t : FTree) (n : String) (d : FileData),
      (n, d) ∈ filesOf t → n ∈ namesOf t
  | .empty, n, d, h => by simp [filesOf] at h
  | .fileE m d' rest, n, d, h => by
      rw [filesOf] at h
      rw [namesOf]
      rcases List.mem_cons.1 h with h | h
      · injection h with h1 h2
        subst h1
        exact List.mem_cons_self _ _
      · exact List.mem_cons_of_mem _ (mem_namesOf_of_file rest n d h)
  | .dirE m rb sb rest, n, d, h => by
      rw [filesOf] at h
      rw [namesOf]
      exact List.mem_cons_of_mem _ (mem_namesOf_of_file rest n d h)

theorem distinctNames_head {m : String} {rest : List String}
    (h : distinctNames (m :: rest) = true) :
    m ∉ rest ∧ distinctNames rest = true := by
  rw [distinctNames, Bool.and_eq_true, Bool.not_eq_true'] at h
  refine ⟨fun hmem => ?_, h.2⟩
  have h2 : rest.contains m = true := List.elem_iff.2 hmem
  rw [h2] at h
  exact absurd h.1 (by simp)

theorem findDirEntry_none_of_not_name :
    ∀ (t : FTree) (n : String), n ∉ namesOf t → findDirEntry t n = none
  | .empty, n, _ => rfl
  | .fileE m d rest, n, h => by
      rw [namesOf, List.mem_cons] at h
      push_neg at h
      rw [findDirEntry]
      exact findDirEntry_none_of_not_name rest n h.2
  | .dirE m r sub rest, n, h => by
      rw [namesOf, List.mem_cons] at h
      push_neg at h
      rw [findDirEntry, if_neg (fun hmn => h.1 hmn.symm)]
      exact findDirEntry_none_of_not_name rest n h.2

theorem findDirEntry_eq_of_mem :
    ∀ (t : FTree) (n : String) (r : Bool) (sub : FTree),
      distinctNames (namesOf t) = true → (n, r, sub) ∈ dirEntriesOf t →
      findDirEntry t n = some (r, sub)
  | .empty, n, r, sub, _, h => by simp [dirEntriesOf] at h
  | .fileE m d rest, n, r, sub, hd, h => by
      rw [dirEntriesOf] at h
      rw [namesOf] at hd
      rw [findDirEntry]
      exact findDirEntry_eq_of_mem rest n r sub (distinctNames_head hd).2 h
  | .dirE m rb sb rest, n, r, sub, hd, h => by
      rw [dirEntriesOf] at h
      rw [namesOf] at hd
      obtain ⟨hm, hd2⟩ := distinctNames_head hd
      rw [findDirEntry]
      rcases List.mem_cons.1 h with h | h
      · injection h with h1 h2
        injection h2 with h2 h3
        subst h1; subst h2; subst h3
        rw [if_pos rfl]
      · have hne : m ≠ n := by
          intro hmn
          have hmem := mem_namesOf_of_dirEntry rest n r sub h
          rw [← hmn] at hmem
          exact hm hmem
        rw [if_neg hne]
        exact findDirEntry_eq_of_mem rest n r sub hd2 h

theorem findDirEntry_none_of_file :
    ∀ (t : FTree) (n : String) (d : FileData),
      distinctNames (namesOf t) = true → (n, d) ∈ filesOf t →
      findDirEntry t n = none
  | .empty, n, d, _, h => by simp [filesOf] at h
  | .fileE m d' rest, n, d, hd, h => by
      rw [filesOf] at h
      rw [namesOf] at hd
      obtain ⟨hm, hd2⟩ := distinctNames_head hd
      rw [findDirEntry]
      rcases List.mem_cons.1 h with h | h
      · injection h with h1 h2
        subst h1
        exact findDirEntry_none_of_not_name rest n hm
      · exact findDirEntry_none_of_file rest n d hd2 h
  | .dirE m rb sb rest, n, d, hd, h => by
      rw [filesOf] at h
      rw [namesOf] at hd
      obtain ⟨hm, hd2⟩ := distinctNames_head hd
      rw [findDirEntry]
      have hne : m ≠ n := by
        intro hmn
        have hmem := mem_namesOf_of_file rest n d h
        rw [← hmn] at hmem
        exact hm hmem
      rw [if_neg hne]
      exact findDirEntry_none_of_file rest n d hd2 h

theorem wfb_distinct {t : FTree} (h : wfb t = true) :
    distinctNames (namesOf t) = true := (Bool.and_eq_true _ _ ▸ h).1

theorem wfb_subs {t : FTree} (h : wfb t = true) : wfSubs t = true :=
  (Bool.and_eq_true _ _ ▸ h).2

theorem wfSubs_dirEntry :
    ∀ (t : FTree) (n : String) (r : Bool) (sub : FTree),
      wfSubs t = true → (n, r, sub) ∈ dirEntriesOf t → wfb sub = true
  | .empty, n, r, sub, _, h => by simp [dirEntriesOf] at h
  | .fileE m d rest, n, r, sub, hw, h => by
      rw [dirEntriesOf] at h
      rw [wfSubs] at hw
      exact wfSubs_dirEntry rest n r sub hw h
  | .dirE m rb sb rest, n, r, sub, hw, h => by
      rw [dirEntriesOf] at h
      rw [wfSubs, Bool.and_eq_true, Bool.and_eq_true] at hw
      rcases List.mem_cons.1 h with h | h
      · injection h with h1 h2
        injection h2 with h2 h3
        subst h3
        rw [wfb]
        rw [Bool.and_eq_true]
        exact hw.1
      · exact wfSubs_dirEntry rest n r sub hw.2 h

theorem subtreeAt_append :
    ∀ (p : List String) (t s : FTree) (q : List String),
      subtreeAt t p = some s → subtreeAt t (p ++ q) = subtreeAt s q
  | [], t, s, q, h => by
      rw [subtreeAt] at h
      injection h with h
      subst h
      rfl
  | n :: p', t, s, q, h => by
      rw [subtreeAt] at h
      rw [List.cons_append, subtreeAt]
      split at h
      · exact subtreeAt_append p' _ s q h
      · exact absurd h (by simp)

theorem underSkipped_append :
    ∀ (p : List String) (t s : FTree) (q : List String),
      subtreeAt t p = some s → underSkipped t p = false →
      underSkipped t (p ++ q) = underSkipped s q
  | [], t, s, q, h, _ => by
      rw [subtreeAt] at h
      injection h with h
      subst h
      rfl
  | n :: p', t, s, q, h, hus => by
      rw [subtreeAt] at h
      rw [underSkipped] at hus
      rw [List.cons_append, underSkipped]
      split at h
      · rename_i rb sub heq
        rw [heq] at hus
        dsimp only at hus
        rw [Bool.or_eq_false_iff] at hus
        rw [hus.1, Bool.false_or]
        exact underSkipped_append p' _ s q h hus.2
      · exact absurd h (by simp)

theorem dirsWalk_safe :
    ∀ (c t0 full : FTree) (dr : List String),
      wfb t0 = true → subtreeAt t0 dr = some full →
      underSkipped t0 dr = false → wfb full = true →
      chainSuffix c full = true →
      ∀ pr ∈ dirsWalk c dr,
        ∃ s, subtreeAt t0 pr.1 = some s ∧ underSkipped t0 pr.1 = false ∧
          pr.2 = filesOf s ∧ wfb s = true
  | .empty, t0, full, dr, _, _, _, _, _, pr, hpr => by simp [dirsWalk] at hpr
  | .fileE n d rest, t0, full, dr, hw, hst, hus, hwf, hcs, pr, hpr => by
      rw [dirsWalk] at hpr
      exact dirsWalk_safe rest t0 full dr hw hst hus hwf
        (chainSuffix_of_fileE full n d rest hcs) pr hpr
  | .dirE n r sub rest, t0, full, dr, hw, hst, hus, hwf, hcs, pr, hpr => by
      rw [dirsWalk] at hpr
      rcases List.mem_append.1 hpr with h | h
      · split at h
        · rename_i hcond
          rw [Bool.and_eq_true, Bool.not_eq_true'] at hcond
          have hmem : (n, r, sub) ∈ dirEntriesOf full :=
            chainSuffix_dirE_mem full n r sub rest hcs
          have hfde : findDirEntry full n = some (r, sub) :=
            findDirEntry_eq_of_mem full n r sub (wfb_distinct hwf) hmem
          have hst' : subtreeAt t0 (dr ++ [n]) = some sub := by
            rw [subtreeAt_append dr t0 full [n] hst, subtreeAt, hfde]
            rfl
          have hus' : underSkipped t0 (dr ++ [n]) = false := by
            rw [underSkipped_append dr t0 full [n] hst hus, underSkipped, hfde]
            show (should_skip_dir n || underSkipped sub []) = false
            rw [hcond.1]
            rfl
          have hwf' : wfb sub = true :=
            wfSubs_dirEntry full n r sub (wfb_subs hwf) hmem
          rcases List.mem_cons.1 h with h | h
          · subst h
            exact ⟨sub, hst', hus', rfl, hwf'⟩
          · exact dirsWalk_safe sub t0 sub (dr ++ [n]) hw hst' hus' hwf'
              (chainSuffix_refl sub) pr h
        · simp at h
      · exact dirsWalk_safe rest t0 full dr hw hst hus hwf
          (chainSuffix_of_dirE full n r sub rest hcs) pr h

theorem osWalk_safe (t : FTree) (hw : wfb t = true) :
    ∀ pr ∈ osWalk t,
      ∃ s, subtreeAt t pr.1 = some s ∧ underSkipped t pr.1 = false ∧
        pr.2 = filesOf s ∧ wfb s = true := by
  intro pr hpr
  rw [osWalk] at hpr
  rcases List.mem_cons.1 hpr with h | h
  · subst h
    exact ⟨t, rfl, rfl, rfl, hw⟩
  · exact dirsWalk_safe t t t [] hw rfl rfl hw (chainSuffix_refl t) pr h

theorem osWalk_file_not_underSkipped (t : FTree) (hw : wfb t = true) :
    ∀ pr ∈ osWalk t, ∀ fd ∈ pr.2, underSkipped t (pr.1 ++ [fd.1]) = false := by
  intro pr hpr fd hfd
  obtain ⟨s, hst, hus, hfs, hws⟩ := osWalk_safe t hw pr hpr
  rw [hfs] at hfd
  have hfd' : (fd.1, fd.2) ∈ filesOf s := by rwa [Prod.mk.eta]
  rw [underSkipped_append pr.1 t s [fd.1] hst hus, underSkipped,
    findDirEntry_none_of_file s fd.1 fd.2 (wfb_distinct hws) hfd']

theorem mem_entriesOf_file :
    ∀ (t : FTree) (n : String) (d : FileData),
      TNode.fileN n d ∈ entriesOf t → (n, d) ∈ filesOf t
  | .empty, n, d, h => by simp [entriesOf] at h
  | .fileE m d' rest, n, d, h => by
      rw [entriesOf] at h
      rw [filesOf]
      rcases List.mem_cons.1 h with h | h
      · injection h with h1 h2
        subst h1
        subst h2
        exact List.mem_cons_self _ _
      · exact List.mem_cons_of_mem _ (mem_entriesOf_file rest n d h)
  | .dirE m rb sb rest, n, d, h => by
      rw [entriesOf] at h
      rw [filesOf]
      rcases List.mem_cons.1 h with h | h
      · exact absurd h (by simp)
      · exact mem_entriesOf_file rest n d h

theorem mem_entriesOf_dir :
    ∀ (t : FTree) (n : String) (r : Bool) (sub : FTree),
      TNode.dirN n r sub ∈ entriesOf t → (n, r, sub) ∈ dirEntriesOf t
  | .empty, n, r, sub, h => by simp [entriesOf] at h
  | .fileE m d' rest, n, r, sub, h => by
      rw [entriesOf] at h
      rw [dirEntriesOf]
      rcases List.mem_cons.1 h with h | h
      · exact absurd h (by simp)
      · exact mem_entriesOf_dir rest n r sub h
  | .dirE m rb sb rest, n, r, sub, h => by
      rw [entriesOf] at h
      rw [dirEntriesOf]
      rcases List.mem_cons.1 h with h | h
      · injection h with h1 h2 h3
        subst h1
        subst h2
        subst h3
        exact List.mem_cons_self _ _
      · exact List.mem_cons_of_mem _ (mem_entriesOf_dir rest n r sub h)

theorem node_path_safe (t0 s : FTree) (dirRel : List String)
    (hst : subtreeAt t0 dirRel = some s) (hus : underSkipped t0 dirRel = false)
    (hws : wfb s = true) (n : TNode) (hn : n ∈ entriesOf s)
    (hsk : tnodeSkip n = false) :
    underSkipped t0 (dirRel ++ [tnodeName n]) = false ∧
    ∀ nm r sub, n = TNode.dirN nm r sub →
      subtreeAt t0 (dirRel ++ [nm]) = some sub ∧ wfb sub = true := by
  cases n with
  | fileN nm d =>
      have hf : (nm, d) ∈ filesOf s := mem_entriesOf_file s nm d hn
      have hfde : findDirEntry s nm = none :=
        findDirEntry_none_of_file s nm d (wfb_distinct hws) hf
      constructor
      · rw [tnodeName, underSkipped_append dirRel t0 s [nm] hst hus, underSkipped, hfde]
      · intro nm' r' sub' h
        exact absurd h (by simp)
  | dirN nm r sub =>
      have hd : (nm, r, sub) ∈ dirEntriesOf s := mem_entriesOf_dir s nm r sub hn
      have hfde : findDirEntry s nm = some (r, sub) :=
        findDirEntry_eq_of_mem s nm r sub (wfb_distinct hws) hd
      have hsd : should_skip_dir nm = false := by rwa [tnodeSkip] at hsk
      constructor
      · rw [tnodeName, underSkipped_append dirRel t0 s [nm] hst hus, underSkipped, hfde]
        show (should_skip_dir nm || underSkipped sub []) = false
        rw [hsd]
        rfl
      · intro nm' r' sub' h
        injection h with h1 h2 h3
        subst h1
        subst h2
        subst h3
        refine ⟨?_, wfSubs_dirEntry s nm r sub (wfb_subs hws) hd⟩
        rw [subtreeAt_append dirRel t0 s [nm] hst, subtreeAt, hfde]
        rfl

theorem mem_treeEntries (s : FTree) (n : TNode)
    (hn : n ∈ ((insertionSortB tnodeKeyLe (entriesOf s)).filter
        (fun x => !tnodeSkip x)).filter (fun x => !tnodeIsFile x) ++
      ((insertionSortB tnodeKeyLe (entriesOf s)).filter
        (fun x => !tnodeSkip x)).filter tnodeIsFile) :
    n ∈ entriesOf s ∧ tnodeSkip n = false := by
  have hk : n ∈ (insertionSortB tnodeKeyLe (entriesOf s)).filter
      (fun x => !tnodeSkip x) := by
    rcases List.mem_append.1 hn with h | h
    · exact List.mem_of_mem_filter h
    · exact List.mem_of_mem_filter h
  have h2 := List.mem_filter.1 hk
  refine ⟨(mem_insertionSortB _ _ _).1 h2.1, ?_⟩
  have h3 := h2.2
  rwa [Bool.not_eq_true'] at h3

theorem treeGo_safe
    (recurse : FTree → Bool → String → List String → Nat → List TreeLine × Nat)
    (p : List String) (pfx : String) (dirRel : List String) (mf : Nat) :
    ∀ (ns : List TNode) (c : Nat),
      (∀ n ∈ ns, dirRel ++ [tnodeName n] ≠ p) →
      (∀ nm r sub, TNode.dirN nm r sub ∈ ns →
        ∀ pfx2 c2 l, l ∈ (recurse sub r pfx2 (dirRel ++ [nm]) c2).1 →
          ∀ pfx3 il nm3, l ≠ TreeLine.entry pfx3 il p nm3) →
      ∀ l ∈ (treeGo recurse pfx dirRel mf ns c).1,
        ∀ pfx3 il nm3, l ≠ TreeLine.entry pfx3 il p nm3
  | [], c, _, _, l, hl => by simp [treeGo] at hl
  | n :: rest, c, Hn, Hd, l, hl => by
      rw [treeGo] at hl
      split at hl
      · simp at hl
        subst hl
        intro pfx3 il nm3
        simp
      · dsimp only at hl
        rcases List.mem_cons.1 hl with hl | hl
        · subst hl
          intro pfx3 il nm3 heq
          injection heq with e1 e2 e3 e4
          exact Hn n (List.mem_cons_self _ _) e3
        · rcases List.mem_append.1 hl with hl | hl
          · cases n with
            | dirN nm r sub =>
                dsimp only [tnodeName] at hl
                exact Hd nm r sub (List.mem_cons_self _ _) _ _ l hl
            | fileN nm d =>
                simp at hl
          · exact treeGo_safe recurse p pfx dirRel mf rest _
              (fun n2 hn2 => Hn n2 (List.mem_cons_of_mem _ hn2))
              (fun nm r sub hn2 => Hd nm r sub (List.mem_cons_of_mem _ hn2)) l hl

theorem buildDirLines_safe (t0 : FTree) (p : List String) (hw0 : wfb t0 = true)
    (hp : underSkipped t0 p = true) (mf : Nat) :
    ∀ (fuel : Nat) (s : FTree) (rb : Bool) (pfx : String) (dirRel : List String)
      (c : Nat),
      subtreeAt t0 dirRel = some s → underSkipped t0 dirRel = false →
      wfb s = true →
      ∀ l ∈ (buildDirLines mf fuel s rb pfx dirRel c).1,
        ∀ pfx3 il nm3, l ≠ TreeLine.entry pfx3 il p nm3
  | 0, s, rb, pfx, dirRel, c, _, _, _, l, hl => by
      rw [buildDirLines] at hl
      simp at hl
      subst hl
      intro pfx3 il nm3
      simp
  | fuel + 1, s, rb, pfx, dirRel, c, hst, hus, hws, l, hl => by
      rw [buildDirLines] at hl
      split at hl
      · simp at hl
        subst hl
        intro pfx3 il nm3
        simp
      · dsimp only at hl
        refine treeGo_safe (buildDirLines mf fuel) p pfx dirRel mf _ c ?_ ?_ l hl
        · intro n2 hn2 heq
          obtain ⟨he, hsk⟩ := mem_treeEntries s n2 hn2
          have hu2 := (node_path_safe t0 s dirRel hst hus hws n2 he hsk).1
          rw [heq] at hu2
          rw [hu2] at hp
          exact absurd hp (by simp)
        · intro nm r sub hn2 pfx2 c2 l2 hl2
          obtain ⟨he, hsk⟩ := mem_treeEntries s _ hn2
          obtain ⟨hsub, hwsub⟩ :=
            (node_path_safe t0 s dirRel hst hus hws _ he hsk).2 nm r sub rfl
          have hu2 : underSkipped t0 (dirRel ++ [nm]) = false := by
            have h3 := (node_path_safe t0 s dirRel hst hus hws _ he hsk).1
            rwa [tnodeName] at h3
          exact buildDirLines_safe t0 p hw0 hp mf fuel sub r pfx2 (dirRel ++ [nm])
            c2 hsub hu2 hwsub l2 hl2

theorem cmdFiles_key (mf : Nat) (dirRel : List String) :
    ∀ (fs : List (String × FileData)) (count : Nat),
      ∀ kv ∈ (cmdFiles mf dirRel fs count).1,
        ∃ n, (∃ d, (n, d) ∈ fs) ∧ kv.1 = dirRel ++ [n]
  | [], count, kv, h => by simp [cmdFiles] at h
  | (n, d) :: rest, count, kv, h => by
      rw [cmdFiles] at h
      split at h
      · obtain ⟨n', ⟨d', hmem⟩, heq⟩ := cmdFiles_key mf dirRel rest count kv h
        exact ⟨n', ⟨d', List.mem_cons_of_mem _ hmem⟩, heq⟩
      · split at h
        · simp at h
        · dsimp only at h
          rcases List.mem_append.1 h with h | h
          · split at h
            · rw [List.mem_singleton] at h
              subst h
              exact ⟨n, ⟨d, List.mem_cons_self _ _⟩, rfl⟩
            · simp at h
          · obtain ⟨n', ⟨d', hmem⟩, heq⟩ :=
              cmdFiles_key mf dirRel rest (count + 1) kv h
            exact ⟨n', ⟨d', List.mem_cons_of_mem _ hmem⟩, heq⟩

theorem cmd_foldl_safe (mf : Nat) (P : List String → Prop) :
    ∀ (prs : List (List String × List (String × FileData)))
      (acc : List (List String × String) × Nat),
      (∀ kv ∈ acc.1, P kv.1) →
      (∀ pr ∈ prs, ∀ n d, (n, d) ∈ pr.2 → P (pr.1 ++ [n])) →
      ∀ kv ∈ (prs.foldl (fun acc p =>
          let step := cmdFiles mf p.1 (sortFilesByName p.2) acc.2
          (acc.1 ++ step.1, step.2)) acc).1, P kv.1
  | [], acc, hacc, _, kv, h => by
      rw [List.foldl_nil] at h
      exact hacc kv h
  | pr :: prs, acc, hacc, hprs, kv, h => by
      rw [List.foldl_cons] at h
      refine cmd_foldl_safe mf P prs _ ?_ ?_ kv h
      · intro kv2 h2
        dsimp only at h2
        rcases List.mem_append.1 h2 with h2 | h2
        · exact hacc kv2 h2
        · obtain ⟨n, ⟨d, hmem⟩, heq⟩ :=
            cmdFiles_key mf pr.1 (sortFilesByName pr.2) acc.2 kv2 h2
          rw [heq]
          have hmem2 : (n, d) ∈ pr.2 := by
            rw [sortFilesByName] at hmem
            exact (mem_insertionSortB _ _ _).1 hmem
          exact hprs pr (List.mem_cons_self _ _) n d hmem2
      · intro q hq n d hnd
        exact hprs q (List.mem_cons_of_mem _ hq) n d hnd

theorem build_dep_graph_key (t : FTree) :
    ∀ kv ∈ build_dep_graph t,
      ∃ pr ∈ osWalk t, ∃ f ∈ pr.2, kv.1 = pr.1 ++ [f.1] := by
  intro kv h
  rw [build_dep_graph] at h
  rw [List.mem_flatMap] at h
  obtain ⟨pr, hpr, h⟩ := h
  rw [List.mem_filterMap] at h
  obtain ⟨f, hf, h⟩ := h
  rw [Option.map_eq_some'] at h
  obtain ⟨e, _, hkv⟩ := h
  exact ⟨pr, hpr, f, hf, by rw [← hkv]⟩

theorem addsForFile_path_or (root : FTree) (dr : List String) (fname : String)
    (d : FileData) : ∀ rec ∈ addsForFile root dr fname d,
      rec.path = dr ++ [fname] ∨ rec.type = "node-main" ∨
        rec.type = "cli-binary" := by
  intro rec hrec
  unfold addsForFile at hrec
  simp only [List.append_assoc, List.mem_append] at hrec
  rcases hrec with h | h | h
  · split at h
    · rw [List.mem_singleton] at h
      subst h
      exact Or.inl rfl
    · simp at h
  · split at h
    · split at h
      · split at h
        · rw [List.mem_singleton] at h
          subst h
          exact Or.inl rfl
        · simp at h
      · simp at h
    · simp at h
  · split at h
    · split at h
      · split at h
        · rw [List.mem_append] at h
          rcases h with h | h
          · split at h
            · split at h
              · rw [List.mem_singleton] at h
                subst h
                exact Or.inr (Or.inl rfl)
              · rw [List.mem_singleton] at h
                subst h
                exact Or.inl rfl
            · simp at h
          · split at h
            · rw [List.mem_map] at h
              obtain ⟨bp, _, hbp⟩ := h
              subst hbp
              split
              · exact Or.inr (Or.inr rfl)
              · exact Or.inr (Or.inr rfl)
            · simp at h
        · simp at h
      · simp at h
    · simp at h

/-- Claim C8 counterexample: with a `package.json` whose `main` field points
at `node_modules/x.js`, `find_entry_points` emits a record whose path lies
under the skipped `node_modules` directory, so a file under a skipped
directory does appear in the entry-point list. -/
theorem claim_C8_counterexample :
    underSkipped treeC8 ["node_modules", "x.js"] = true ∧
    (⟨["node_modules", "x.js"], "node-main",
        "referenced as `main` in package.json"⟩ : EntryRecord) ∈
      find_entry_points treeC8 := by decide

/-- Claim C8 (amended): on a well-formed tree, a path under a skipped
directory never appears as an entry line of the rendered file tree, as a
module-description key, or as a dependency-graph key; an entry-point record
can carry such a path only when it was created from a `package.json`
`main`/`bin` target reference (type `node-main` or `cli-binary`). -/
theorem claim_C8 (t : FTree) (p : List String) (rb : Bool) (md mf : Nat)
    (hw : wfb t = true) (hus : underSkipped t p = true) :
    (∀ l ∈ build_file_tree t rb md mf,
      ∀ pfx il nm, l ≠ TreeLine.entry pfx il p nm) ∧
    (∀ kv ∈ collect_module_descriptions t mf, kv.1 ≠ p) ∧
    (∀ kv ∈ build_dep_graph t, kv.1 ≠ p) ∧
    (∀ r ∈ find_entry_points t, r.path = p →
      r.type = "node-main" ∨ r.type = "cli-binary") := by
  refine ⟨?_, ?_, ?_, ?_⟩
  · intro l hl
    rw [build_file_tree] at hl
    exact buildDirLines_safe t p hw hus mf (md + 1) t rb "" [] 0 rfl rfl hw l hl
  · intro kv hkv hkvp
    rw [collect_module_descriptions] at hkv
    have hP : underSkipped t kv.1 = false :=
      cmd_foldl_safe mf (fun q => underSkipped t q = false) (osWalk t) ([], 0)
        (by intro kv2 h2; simp at h2)
        (by
          intro pr hpr n d hnd
          exact osWalk_file_not_underSkipped t hw pr hpr (n, d) hnd)
        kv hkv
    rw [hkvp] at hP
    rw [hP] at hus
    exact absurd hus (by simp)
  · intro kv hkv hkvp
    obtain ⟨pr, hpr, f, hf, heq⟩ := build_dep_graph_key t kv hkv
    have hP := osWalk_file_not_underSkipped t hw pr hpr f hf
    rw [← heq, hkvp] at hP
    rw [hP] at hus
    exact absurd hus (by simp)
  · intro r hr hrp
    rw [find_entry_points] at hr
    have h1 : r ∈ dedupByPath (epWalkAdds t) [] := (mem_insertionSortB _ _ _).1 hr
    have h2 : r ∈ epWalkAdds t := mem_dedupByPath _ _ r h1
    rw [epWalkAdds, List.mem_flatMap] at h2
    obtain ⟨pr, hpr, h2⟩ := h2
    rw [List.mem_flatMap] at h2
    obtain ⟨f, hf, h2⟩ := h2
    rcases addsForFile_path_or t pr.1 f.1 f.2 r h2 with h | h | h
    · exfalso
      have hP := osWalk_file_not_underSkipped t hw pr hpr f hf
      rw [← h, hrp] at hP
      rw [hP] at hus
      exact absurd hus (by simp)
    · exact Or.inl h
    · exact Or.inr h

/-- Claim C8 witness: the amended statement instantiated on a tree holding a
`.git` directory with a Python file at `.git/hook.py`. -/
theorem claim_C8_witness :
    wfb treeC8w = true ∧ underSkipped treeC8w [".git", "hook.py"] = true ∧
    ((∀ l ∈ build_file_tree treeC8w true 6 300,
        ∀ pfx il nm, l ≠ TreeLine.entry pfx il [".git", "hook.py"] nm) ∧
      (∀ kv ∈ collect_module_descriptions treeC8w 300,
        kv.1 ≠ [".git", "hook.py"]) ∧
      (∀ kv ∈ build_dep_graph treeC8w, kv.1 ≠ [".git", "hook.py"]) ∧
      (∀ r ∈ find_entry_points treeC8w, r.path = [".git", "hook.py"] →
        r.type = "node-main" ∨ r.type = "cli-binary")) :=
  ⟨by decide, by decide,
    claim_C8 treeC8w [".git", "hook.py"] true 6 300 (by decide) (by decide)⟩

end Codemap
